import Mathlib

/-!
Tailfeather: the per-column colour tracker.

A shallow embedding of `src/tailfeather.go`.  The Go program keeps one `Field`
per column; each input line is split into field values and every value is
printed in a colour chosen by the column's `Field`.  The body of the inner loop
of `main` (lines 103-137) is the function `assign` below; the outer loop body
(lines 82-144) is `processLine`; the text it writes is `lineText`.

Modelling choices:
* a Go `map[string]int` is an association list with unique keys, with the three
  operations the program uses (`get`, `delete`, `set`);
* the array `[maxValues]string` is a list of strings, initially seven empty
  strings (the Go zero value);
* `int` values are natural numbers: every index the program computes is either
  read from the map or of the form `(x + 1) % maxValues`;
* an index out of range and a missing tracker make the Go program fail at run
  time; here the step returns `none`.
-/

namespace Tailfeather

/-- The colour constants of the terminal library `go-colortext` (type `ct.Color`). -/
inductive Color where
  | None | Black | Red | Green | Yellow | Blue | Magenta | Cyan | White
  deriving DecidableEq, Repr

/-- The palette, `var colors` (lines 32-40). -/
def colors : List Color :=
  [Color.White, Color.Magenta, Color.Cyan, Color.Blue, Color.Green, Color.Yellow, Color.Red]

/-- The constant `maxValues` (line 43). -/
def maxValues : Nat := 7

/-- A Go `map[string]int`, as an association list. -/
abbrev GoMap := List (String × Nat)

namespace GoMap

/-- The read `m[k]` in its two-result form: `none` when the key is absent. -/
def get : GoMap → String → Option Nat
  | [], _ => none
  | (k', s) :: m, k => if k' = k then some s else get m k

/-- The builtin `delete(m, k)`. -/
def delete : GoMap → String → GoMap
  | [], _ => []
  | (k', s) :: m, k => if k' = k then delete m k else (k', s) :: delete m k

/-- The write `m[k] = s`. -/
def set (m : GoMap) (k : String) (s : Nat) : GoMap :=
  (k, s) :: delete m k

/-- The keys of the map. -/
def keys (m : GoMap) : List String :=
  m.map Prod.fst

end GoMap

/-- The struct `Field` (lines 46-51). -/
structure Field where
  ValueIndex : GoMap
  Values : List String
  NextIndex : Nat
  PrevDisplayedColor : Color
  deriving DecidableEq, Repr

/-- The constructor `NewField` (lines 53-60): `colors[len(colors)-1]` is `Red`. -/
def NewField : Field :=
  { ValueIndex := []
    Values := List.replicate maxValues ""
    NextIndex := 0
    PrevDisplayedColor := colors.getD (colors.length - 1) Color.None }

/-- The array write `a[i] = v`, which fails when `i` is out of range. -/
def setSlot (a : List String) (i : Nat) (v : String) : Option (List String) :=
  if i < a.length then some (a.set i v) else none

/-- Lines 109-116: the slot a novel value is put in, and its colour.  The slot is
`NextIndex`, or the one after it when the colour of `NextIndex` is the
previously displayed colour. -/
def chooseSlot (f : Field) : Option (Nat × Color) :=
  match colors[f.NextIndex]? with
  | none => none
  | some c =>
    if c = f.PrevDisplayedColor then
      match colors[(f.NextIndex + 1) % maxValues]? with
      | none => none
      | some c' => some ((f.NextIndex + 1) % maxValues, c')
    else some (f.NextIndex, c)

/-- Lines 118-125: evict the occupant of slot `vi` and put `v` there. -/
def insertAt (f : Field) (v : String) (vi : Nat) : Option Field :=
  match f.Values[vi]? with
  | none => none
  | some prevValue =>
    match setSlot f.Values vi v with
    | none => none
    | some values =>
      some { ValueIndex := (f.ValueIndex.delete prevValue).set v vi
             Values := values
             NextIndex := (vi + 1) % maxValues
             PrevDisplayedColor := f.PrevDisplayedColor }

/-- Lines 103-137, the colour of value `v` in the column tracked by `f`, and the
tracker afterwards.  On a missing key the Go read yields index `0`, so
`colors[vi]` on line 104 is evaluated in both cases. -/
def assign (f : Field) (v : String) : Option (Color × Field) :=
  let r := f.ValueIndex.get v
  match colors[r.getD 0]? with
  | none => none
  | some c =>
    match r with
    | some _ => some (c, { f with PrevDisplayedColor := c })
    | none =>
      match chooseSlot f with
      | none => none
      | some (vi, c') =>
        match insertAt f v vi with
        | none => none
        | some f' => some (c', { f' with PrevDisplayedColor := c' })

/-- A run of `assign` over the successive values of one column: the colours
returned and the final tracker. -/
def assignAll (f : Field) : List String → Option (List Color × Field)
  | [] => some ([], f)
  | v :: vs =>
    match assign f v with
    | none => none
    | some (c, f') =>
      match assignAll f' vs with
      | none => none
      | some (cs, f'') => some (c :: cs, f'')

/-- The tracker states reachable from a fresh tracker by calls of `assign`. -/
inductive Reachable : Field → Prop where
  | fresh : Reachable NewField
  | step {f f' : Field} {v : String} {c : Color} :
      Reachable f → assign f v = some (c, f') → Reachable f'

/-- The variables `fields` and `numFields` of `main` (lines 76-77).  The map
`fields` always has the keys `0 .. n-1`, so it is the list of its values in key
order; the `nil` map before the first line is the empty list. -/
structure State where
  fields : List Field
  numFields : Nat
  deriving DecidableEq, Repr

/-- The state before the first line is read. -/
def State.initial : State :=
  { fields := [], numFields := 0 }

/-- What is written for one field: the colour set by `ct.ChangeColor`
(line 129), the text printed (line 130), and whether `outputDelimiter` is
printed after it (lines 140-142). -/
structure Emit where
  color : Color
  text : String
  delim : Bool
  deriving DecidableEq, Repr

/-- Lines 86-95: a line whose field count differs from `numFields` replaces
every tracker by a fresh one. -/
def reshape (st : State) (lineFields : List String) : State :=
  if lineFields.length ≠ st.numFields then
    { fields := List.replicate lineFields.length NewField
      numFields := lineFields.length }
  else st

/-- Lines 98-143: the `range` loop over the fields of a line, from index `fi`
on.  `fields[fi]` is a pointer, so the tracker is updated in place. -/
def fieldLoop (numFields : Nat) :
    List Field → Nat → List String → Option (List Emit × List Field)
  | fields, _, [] => some ([], fields)
  | fields, fi, v :: vs =>
    match fields[fi]? with
    | none => none
    | some f =>
      match assign f v with
      | none => none
      | some (c, f') =>
        match fieldLoop numFields (fields.set fi f') (fi + 1) vs with
        | none => none
        | some (es, fields') =>
          some ({ color := c, text := v,
                  delim := decide ((fi : Int) < (numFields : Int) - 1) } :: es, fields')

/-- Lines 82-144: one iteration of the scanner loop, on a line already split
into its fields. -/
def processLine (st : State) (lineFields : List String) : Option (List Emit × State) :=
  let st' := reshape st lineFields
  match fieldLoop st'.numFields st'.fields 0 lineFields with
  | none => none
  | some (es, fields') => some (es, { fields := fields', numFields := st'.numFields })

/-- The scanner loop over a sequence of lines: what is written for each line,
and the final state. -/
def processLines (st : State) : List (List String) → Option (List (List Emit) × State)
  | [] => some ([], st)
  | l :: ls =>
    match processLine st l with
    | none => none
    | some (es, st') =>
      match processLines st' ls with
      | none => none
      | some (ess, st'') => some (es :: ess, st'')

/-- The colours of the fields of one line. -/
def lineColors (es : List Emit) : List Color :=
  es.map Emit.color

/-- The colours shown in column `i` over a sequence of lines (lines without a
column `i` contribute nothing). -/
def columnColors (i : Nat) (ess : List (List Emit)) : List Color :=
  ess.filterMap (fun es => (lineColors es)[i]?)

/-- The representation invariant of a tracker: the array has `maxValues` slots,
the cursor is a slot, the map has no duplicate key, every map entry `(v, s)` has
`Values[s] = v`, and every slot holding a non-empty string is the map entry of
that string. -/
structure Inv (f : Field) : Prop where
  len : f.Values.length = maxValues
  next : f.NextIndex < maxValues
  nodup : f.ValueIndex.keys.Nodup
  fwd : ∀ v s, f.ValueIndex.get v = some s → f.Values[s]? = some v
  bwd : ∀ s v, f.Values[s]? = some v → v ≠ "" → f.ValueIndex.get v = some s

/-- The tracker after one value `v` was assigned on a fresh tracker. -/
def firstField (v : String) : Field :=
  { ValueIndex := [(v, 0)]
    Values := [v, "", "", "", "", "", ""]
    NextIndex := 1
    PrevDisplayedColor := Color.White }

/-- The invariant of the scanner loop: there is one tracker per column of the
current shape, each reachable from a fresh tracker. -/
def StateOK (st : State) : Prop :=
  st.fields.length = st.numFields ∧ ∀ f ∈ st.fields, Reachable f

/-- The shape of a tracker in which exactly the values `pre` were inserted, in
this order, into the slots `0, 1, ...` of a fresh tracker: the slots hold `pre`
followed by empty strings, the cursor is the next slot, the colour shown last
is that of the slot before it, and only values of `pre` are keys of the map. -/
def Filled (pre : List String) (f : Field) : Prop :=
  f.Values = pre ++ List.replicate (maxValues - pre.length) "" ∧
  f.NextIndex = pre.length % maxValues ∧
  f.PrevDisplayedColor = colors.getD ((pre.length + 6) % maxValues) Color.None ∧
  ∀ x ∈ f.ValueIndex.keys, x ∈ pre

/-- The number of insertions of novel values other than `v` made by a run of
`assign` over `ws` from `f`: the calls whose value is not `v` and is not a key
of the map when the call is made. -/
def novelOthers (v : String) (f : Field) : List String → Nat
  | [] => 0
  | w :: ws =>
    match assign f w with
    | none => 0
    | some (_, f') =>
      (if w ≠ v ∧ f.ValueIndex.get w = none then 1 else 0) + novelOthers v f' ws

/-- The tracker `f` tracks `v` at slot `s`, and the cursor is at most `d` slots
past the slot after `s`. -/
def HeldAt (v : String) (s d : Nat) (f : Field) : Prop :=
  Inv f ∧ f.ValueIndex.get v = some s ∧ (f.NextIndex + maxValues - (s + 1)) % maxValues ≤ d

/-- A tracker together with a record of its insertions, kept only to state
which tracked value was inserted least recently: `count` is the number of
insertions so far, `stamps[s]` is the ordinal of the insertion that last wrote
slot `s` (`0` if the slot was never written), and `streak` is the number of
most recent insertions that wrote consecutive slots, that is one more than the
number of most recent insertions made without the anti-repeat skip. -/
structure Timed where
  field : Field
  stamps : List Nat
  count : Nat
  streak : Nat
  deriving DecidableEq, Repr

/-- A fresh tracker, with no insertion recorded. -/
def Timed.fresh : Timed :=
  { field := NewField, stamps := List.replicate maxValues 0, count := 0, streak := 0 }

/-- The function `assign` on the tracker, with the record kept up to date: a
cache hit records nothing, an insertion stamps the slot the value was given. -/
def assignT (t : Timed) (v : String) : Option (Color × Timed) :=
  match assign t.field v with
  | none => none
  | some (c, f') =>
    match t.field.ValueIndex.get v with
    | some _ => some (c, { t with field := f' })
    | none =>
      let s := (f'.ValueIndex.get v).getD 0
      some (c, { field := f'
                 stamps := t.stamps.set s (t.count + 1)
                 count := t.count + 1
                 streak := if s = t.field.NextIndex then t.streak + 1 else 1 })

/-- A run of `assignT` over successive values. -/
def assignAllT (t : Timed) : List String → Option Timed
  | [] => some t
  | v :: vs =>
    match assignT t v with
    | none => none
    | some (_, t') => assignAllT t' vs

/-- The recorded trackers reachable from a fresh one. -/
inductive ReachableT : Timed → Prop where
  | fresh : ReachableT Timed.fresh
  | step {t t' : Timed} {v : String} {c : Color} :
      ReachableT t → assignT t v = some (c, t') → ReachableT t'

/-- The insertion ordinal recorded for slot `s`. -/
def Timed.stamp (t : Timed) (s : Nat) : Nat :=
  t.stamps.getD s 0

/-- The invariant of the insertion record: stamps are at most `count`, two
slots with the same non-zero stamp are the same slot, and the last `streak`
insertions wrote the slots before the cursor, going backwards. -/
structure InvT (t : Timed) : Prop where
  inv : Inv t.field
  len : t.stamps.length = maxValues
  le : ∀ s, t.stamp s ≤ t.count
  streak_le : t.streak ≤ t.count
  inj : ∀ s r, s < maxValues → r < maxValues → t.stamp s = t.stamp r → t.stamp s ≠ 0 → s = r
  recent : ∀ i, i < t.streak → i < maxValues →
    t.stamp ((t.field.NextIndex + 6 - i) % maxValues) = t.count - i

/-- The palette entry of position `k`, counted cyclically. -/
def paletteAt (k : Nat) : Color :=
  colors.getD (k % maxValues) Color.None

/-- The shape of a tracker after the pairwise distinct values `pre` were
assigned on a fresh tracker, whatever their number: the array has its 7 slots,
the cursor is `pre.length mod 7`, the colour shown last is that of the slot
before the cursor, and only values of `pre` are keys of the map. -/
def Cycled (pre : List String) (f : Field) : Prop :=
  f.Values.length = maxValues ∧
  f.NextIndex = pre.length % maxValues ∧
  f.PrevDisplayedColor = paletteAt (pre.length + 6) ∧
  ∀ x ∈ f.ValueIndex.keys, x ∈ pre

/-- The text written for one line, colour changes left out: `fmt.Print(v)` for
each field (line 130), `fmt.Print(outputDelimiter)` after the fields for which
the test of line 140 holds, and the `fmt.Println()` of line 144. -/
def lineText (outputDelimiter : String) : List Emit → String
  | [] => "\n"
  | e :: es => e.text ++ (if e.delim then outputDelimiter else "") ++ lineText outputDelimiter es

/-- The values of column `i` over a sequence of lines (lines without a column
`i` contribute nothing). -/
def columnValues (i : Nat) (ls : List (List String)) : List String :=
  ls.filterMap (fun l => l[i]?)

/-- The number of slots consumed by a run of `assign` over `ws` from `f`, the
calls for `v` left out: an insertion of a novel value (a value that is not a key
of the map when the call is made) consumes one slot, and two when the
anti-repeat skip fires at that call, that is when `colors[NextIndex]` is the
colour shown last; a cache hit consumes none. -/
def slotAdvances (v : String) (f : Field) : List String → Nat
  | [] => 0
  | w :: ws =>
    match assign f w with
    | none => 0
    | some (_, f') =>
      (if w ≠ v ∧ f.ValueIndex.get w = none then
        (if colors[f.NextIndex]? = some f.PrevDisplayedColor then 2 else 1)
      else 0) + slotAdvances v f' ws

/-- The slots consumed by one call of `assign` for `w`, the calls for `v` left
out (the summand of `slotAdvances`). -/
def slotAdvance (v w : String) (f : Field) : Nat :=
  if w ≠ v ∧ f.ValueIndex.get w = none then
    (if colors[f.NextIndex]? = some f.PrevDisplayedColor then 2 else 1)
  else 0

/-! ## The map operations -/

namespace GoMap

theorem get_delete (m : GoMap) (k k' : String) :
    get (delete m k) k' = if k = k' then none else get m k' := by
  induction m with
  | nil => simp [delete, get]
  | cons p m ih =>
    obtain ⟨a, s⟩ := p
    by_cases h : a = k
    · subst h
      by_cases h' : a = k'
      · subst h'
        simpa [delete, get] using ih
      · simp [delete, get, ih, h']
    · by_cases h' : a = k'
      · subst h'
        simp [delete, get, h, Ne.symm h]
      · simp [delete, get, ih, h, h']

theorem get_set (m : GoMap) (k k' : String) (s : Nat) :
    get (set m k s) k' = if k = k' then some s else get m k' := by
  by_cases h : k = k'
  · simp [set, get, h]
  · simp [set, get, h, get_delete]

theorem mem_keys_iff (m : GoMap) (k : String) : k ∈ keys m ↔ get m k ≠ none := by
  induction m with
  | nil => simp [keys, get]
  | cons p m ih =>
    obtain ⟨a, s⟩ := p
    by_cases h : a = k
    · simp [keys, get, h]
    · have ih' : k ∈ List.map Prod.fst m ↔ get m k ≠ none := ih
      simp [keys, get, h, Ne.symm h, ih']

theorem keys_delete_subset (m : GoMap) (k : String) : ∀ x ∈ keys (delete m k), x ∈ keys m := by
  intro x hx
  rw [mem_keys_iff] at hx ⊢
  rw [get_delete] at hx
  by_cases h : k = x
  · simp [h] at hx
  · simpa [h] using hx

theorem nodup_keys_delete (m : GoMap) (k : String) (h : (keys m).Nodup) :
    (keys (delete m k)).Nodup := by
  induction m with
  | nil => simp [delete, keys]
  | cons p m ih =>
    obtain ⟨a, s⟩ := p
    have h1 : a ∉ keys m ∧ (keys m).Nodup := by simpa [keys] using h
    by_cases hk : a = k
    · simpa [delete, hk] using ih h1.2
    · have h2 : a ∉ keys (delete m k) := fun hx => h1.1 (keys_delete_subset m k a hx)
      have h3 : (keys ((a, s) :: delete m k)).Nodup :=
        List.nodup_cons.mpr ⟨h2, ih h1.2⟩
      simpa [delete, hk] using h3

theorem nodup_keys_set (m : GoMap) (k : String) (s : Nat) (h : (keys m).Nodup) :
    (keys (set m k s)).Nodup := by
  have h1 : k ∉ keys (delete m k) := by
    rw [mem_keys_iff, get_delete]
    simp
  exact List.nodup_cons.mpr ⟨h1, nodup_keys_delete m k h⟩

end GoMap

/-! ## The palette -/

theorem colors_length : colors.length = 7 := rfl

theorem colors_get_lt (i : Nat) (h : i < 7) : ∃ c, colors[i]? = some c := by
  interval_cases i <;> simp [colors]

theorem colors_injective (i j : Nat) (c : Color) (hi : colors[i]? = some c)
    (hj : colors[j]? = some c) : i = j := by
  have hi' : i < 7 := by
    by_contra h
    have : colors[i]? = none := List.getElem?_eq_none (by simp [colors_length]; omega)
    simp [this] at hi
  have hj' : j < 7 := by
    by_contra h
    have : colors[j]? = none := List.getElem?_eq_none (by simp [colors_length]; omega)
    simp [this] at hj
  interval_cases i <;> interval_cases j <;>
    first
      | rfl
      | (simp [colors] at hi hj; subst hi; cases hj)


/-! ## One call of `assign` -/

theorem chooseSlot_spec (f : Field) (h : f.NextIndex < maxValues) :
    ∃ vi c, chooseSlot f = some (vi, c) ∧ vi < maxValues ∧ colors[vi]? = some c ∧
      c ≠ f.PrevDisplayedColor ∧
      (vi = f.NextIndex ∨ vi = (f.NextIndex + 1) % maxValues) := by
  obtain ⟨m, a, n, p⟩ := f
  simp only [maxValues] at h ⊢
  simp only [chooseSlot, maxValues]
  interval_cases n <;> cases p <;> simp [colors] <;>
    exact ⟨_, _, ⟨rfl, rfl⟩, by decide, by decide, by decide, by decide⟩

theorem chooseSlot_eq (f : Field) (s : Nat) (c : Color) (h : chooseSlot f = some (s, c)) :
    s = if colors[f.NextIndex]? = some f.PrevDisplayedColor
        then (f.NextIndex + 1) % maxValues else f.NextIndex := by
  unfold chooseSlot at h
  split at h
  · cases h
  · rename_i c0 hc0
    rw [hc0]
    by_cases hc : c0 = f.PrevDisplayedColor
    · rw [if_pos hc] at h
      split at h
      · cases h
      · simp only [Option.some.injEq, Prod.mk.injEq] at h
        simp [hc, h.1.symm]
    · rw [if_neg hc] at h
      simp only [Option.some.injEq, Prod.mk.injEq] at h
      simp [hc, h.1.symm]

theorem assign_hit (f : Field) (v : String) (s : Nat) (hs : s < maxValues)
    (hget : f.ValueIndex.get v = some s) :
    ∃ c, colors[s]? = some c ∧ assign f v = some (c, { f with PrevDisplayedColor := c }) := by
  obtain ⟨c, hc⟩ := colors_get_lt s hs
  exact ⟨c, hc, by simp [assign, hget, hc]⟩

theorem assign_miss (f : Field) (v : String) (hlen : f.Values.length = maxValues)
    (hnext : f.NextIndex < maxValues) (hget : f.ValueIndex.get v = none) :
    ∃ vi c prev, chooseSlot f = some (vi, c) ∧ vi < maxValues ∧ f.Values[vi]? = some prev ∧
      assign f v = some (c,
        { ValueIndex := (f.ValueIndex.delete prev).set v vi
          Values := f.Values.set vi v
          NextIndex := (vi + 1) % maxValues
          PrevDisplayedColor := c }) := by
  obtain ⟨vi, c, hch, hvi, _, _, _⟩ := chooseSlot_spec f hnext
  have hlt : vi < f.Values.length := by omega
  refine ⟨vi, c, f.Values[vi], hch, hvi, List.getElem?_eq_getElem hlt, ?_⟩
  simp [assign, hget, hch, insertAt, setSlot, hlt, colors, List.getElem?_eq_getElem hlt]

theorem inv_NewField : Inv NewField := by
  refine ⟨by simp [NewField], by simp [NewField, maxValues], by simp [NewField, GoMap.keys],
    by simp [NewField, GoMap.get], ?_⟩
  intro s v h hv
  exfalso
  apply hv
  simp only [NewField] at h
  have h1 := List.getElem?_eq_some.mp h
  obtain ⟨hlt, heq⟩ := h1
  simpa using heq.symm

theorem inv_assign (f f' : Field) (v : String) (c : Color) (hinv : Inv f)
    (h : assign f v = some (c, f')) : Inv f' := by
  cases hget : f.ValueIndex.get v with
  | some s =>
    have hs : s < maxValues := by
      have h1 := hinv.fwd v s hget
      have h2 := (List.getElem?_eq_some.mp h1).1
      have h3 := hinv.len
      omega
    obtain ⟨c', _, hc'⟩ := assign_hit f v s hs hget
    rw [hc'] at h
    obtain ⟨_, rfl⟩ : c' = c ∧ { f with PrevDisplayedColor := c' } = f' := by simpa using h
    exact ⟨hinv.len, hinv.next, hinv.nodup, hinv.fwd, hinv.bwd⟩
  | none =>
    obtain ⟨vi, c', prev, _, hvi, hprev, hc'⟩ := assign_miss f v hinv.len hinv.next hget
    rw [hc'] at h
    simp only [Option.some.injEq, Prod.mk.injEq] at h
    obtain ⟨_, rfl⟩ := h
    have hlen := hinv.len
    refine ⟨by simpa using hinv.len, Nat.mod_lt _ (by decide),
      GoMap.nodup_keys_set _ _ _ (GoMap.nodup_keys_delete _ _ hinv.nodup), ?_, ?_⟩
    · intro w s hw
      simp only [GoMap.get_set, GoMap.get_delete] at hw
      by_cases hvw : v = w
      · subst hvw
        simp only [if_true, Option.some.injEq] at hw
        subst hw
        simp [List.getElem?_set, hlen, hvi]
      · simp only [hvw, if_false] at hw
        by_cases hpw : prev = w
        · simp [hpw] at hw
        · simp only [hpw, if_false] at hw
          have h1 := hinv.fwd w s hw
          have hne : vi ≠ s := by
            rintro rfl
            rw [hprev] at h1
            exact hpw (by simpa using h1)
          simpa [List.getElem?_set, hne] using h1
    · intro s w hw hne
      simp only [GoMap.get_set, GoMap.get_delete]
      by_cases hs : vi = s
      · subst hs
        have : v = w := by simpa [List.getElem?_set, hlen, hvi] using hw
        simp [this]
      · have h1 : f.Values[s]? = some w := by simpa [List.getElem?_set, hs] using hw
        have h2 := hinv.bwd s w h1 hne
        have hvw : v ≠ w := by
          rintro rfl
          rw [hget] at h2
          cases h2
        have hpw : prev ≠ w := by
          rintro rfl
          have h3 := hinv.bwd vi prev hprev hne
          rw [h2] at h3
          exact hs (by simpa using h3.symm)
        simp [hvw, hpw, h2]

theorem inv_of_reachable (f : Field) (h : Reachable f) : Inv f := by
  induction h with
  | fresh => exact inv_NewField
  | step _ hstep ih => exact inv_assign _ _ _ _ ih hstep

theorem slot_lt_of_get (f : Field) (hinv : Inv f) (v : String) (s : Nat)
    (hget : f.ValueIndex.get v = some s) : s < maxValues := by
  have h1 := hinv.fwd v s hget
  have h2 := (List.getElem?_eq_some.mp h1).1
  have h3 := hinv.len
  omega


theorem prev_of_assign (f f' : Field) (v : String) (c : Color)
    (h : assign f v = some (c, f')) : f'.PrevDisplayedColor = c := by
  unfold assign at h
  simp only at h
  split at h
  · cases h
  · split at h
    · simp only [Option.some.injEq, Prod.mk.injEq] at h
      obtain ⟨h1, rfl⟩ := h
      exact h1
    · split at h
      · cases h
      · split at h
        · cases h
        · simp only [Option.some.injEq, Prod.mk.injEq] at h
          obtain ⟨h1, rfl⟩ := h
          exact h1

theorem reachable_of_assignAll (f : Field) (vs : List String) (cs : List Color) (f' : Field)
    (hr : Reachable f) (h : assignAll f vs = some (cs, f')) : Reachable f' := by
  induction vs generalizing f cs with
  | nil =>
    simp only [assignAll, Option.some.injEq, Prod.mk.injEq] at h
    exact h.2 ▸ hr
  | cons v vs ih =>
    simp only [assignAll] at h
    split at h
    · cases h
    · rename_i c f1 h1
      split at h
      · cases h
      · rename_i cs1 f2 h2
        simp only [Option.some.injEq, Prod.mk.injEq] at h
        obtain ⟨_, rfl⟩ := h
        exact ih f1 cs1 (Reachable.step hr h1) h2

/-! ## Properties of one tracker -/

/-- C1 (anti-repeat on miss): in a tracker reachable from a fresh one, a value
that is not tracked is given a colour different from `PrevDisplayedColor`
before the call; on a fresh tracker that colour is not the seed `Red`, and when
the tracker is the result of an earlier `assign`, the colour differs from the
one that call returned. -/
theorem anti_repeat_on_miss (f : Field) (v : String) (hr : Reachable f)
    (hv : f.ValueIndex.get v = none) :
    ∃ c f', assign f v = some (c, f') ∧ c ≠ f.PrevDisplayedColor ∧
      (f = NewField → c ≠ Color.Red) ∧
      (∀ f0 u c0, assign f0 u = some (c0, f) → c ≠ c0) := by
  have hinv := inv_of_reachable f hr
  obtain ⟨vi, c, prev, hch, _, _, hass⟩ := assign_miss f v hinv.len hinv.next hv
  obtain ⟨vi', c', hch', _, _, hne, _⟩ := chooseSlot_spec f hinv.next
  rw [hch] at hch'
  simp only [Option.some.injEq, Prod.mk.injEq] at hch'
  obtain ⟨_, rfl⟩ := hch'
  refine ⟨c, _, hass, hne, ?_, ?_⟩
  · intro hf
    rw [hf] at hne
    exact hne
  · intro f0 u c0 h0
    rw [prev_of_assign f0 f u c0 h0] at hne
    exact hne

theorem anti_repeat_on_miss_witness :
    ∃ f, assignAll NewField ["a", "b", "a"] = some ([Color.White, Color.Magenta, Color.White], f) ∧
      f.ValueIndex.get "c" = none ∧
      ∃ c f', assign f "c" = some (c, f') ∧ c ≠ f.PrevDisplayedColor ∧
        (f = NewField → c ≠ Color.Red) ∧
        (∀ f0 u c0, assign f0 u = some (c0, f) → c ≠ c0) :=
  ⟨_, rfl, by decide,
    anti_repeat_on_miss _ "c"
      (reachable_of_assignAll NewField ["a", "b", "a"] _ _ Reachable.fresh rfl) (by decide)⟩

/-- C3 (bounded distinctness): in a tracker reachable from a fresh one the map
has no duplicate key and at most `maxValues = 7` keys, and two distinct tracked
values have distinct slots, both below 7, and distinct palette colours. -/
theorem bounded_distinctness (f : Field) (hr : Reachable f) :
    f.ValueIndex.keys.Nodup ∧ f.ValueIndex.keys.length ≤ maxValues ∧
      f.ValueIndex.keys.toFinset.card ≤ maxValues ∧
      ∀ v w s t, f.ValueIndex.get v = some s → f.ValueIndex.get w = some t → v ≠ w →
        s ≠ t ∧ s < maxValues ∧ t < maxValues ∧ colors[s]? ≠ colors[t]? := by
  have hinv := inv_of_reachable f hr
  have hinj : ∀ v w s t, f.ValueIndex.get v = some s → f.ValueIndex.get w = some t → v ≠ w →
      s ≠ t := by
    intro v w s t hv hw hne hst
    subst hst
    have h1 := hinv.fwd v s hv
    have h2 := hinv.fwd w s hw
    rw [h1] at h2
    exact hne (by simpa using h2)
  have hcard : f.ValueIndex.keys.toFinset.card ≤ maxValues := by
    have h := Finset.card_le_card_of_injOn
      (s := f.ValueIndex.keys.toFinset) (t := Finset.range maxValues)
      (fun k => (f.ValueIndex.get k).getD 0) ?_ ?_
    · simpa using h
    · intro k hk
      have hk' : k ∈ f.ValueIndex.keys := by simpa using hk
      rw [GoMap.mem_keys_iff] at hk'
      obtain ⟨s, hs⟩ := Option.ne_none_iff_exists'.mp hk'
      simpa [hs] using slot_lt_of_get f hinv k s hs
    · intro k hk k' hk' heq
      have h1 : k ∈ f.ValueIndex.keys := by simpa using hk
      have h2 : k' ∈ f.ValueIndex.keys := by simpa using hk'
      rw [GoMap.mem_keys_iff] at h1 h2
      obtain ⟨s, hs⟩ := Option.ne_none_iff_exists'.mp h1
      obtain ⟨t, ht⟩ := Option.ne_none_iff_exists'.mp h2
      by_contra hne
      simp only [hs, ht, Option.getD_some] at heq
      exact hinj k k' s t hs ht hne heq
  refine ⟨hinv.nodup, ?_, hcard, ?_⟩
  · rw [← List.toFinset_card_of_nodup hinv.nodup]
    exact hcard
  · intro v w s t hv hw hne
    have hs := slot_lt_of_get f hinv v s hv
    have ht := slot_lt_of_get f hinv w t hw
    refine ⟨hinj v w s t hv hw hne, hs, ht, ?_⟩
    intro hcol
    obtain ⟨c, hc⟩ := colors_get_lt s hs
    exact hinj v w s t hv hw hne (colors_injective s t c hc (hcol ▸ hc))

theorem bounded_distinctness_witness :
    ∃ f, assignAll NewField ["a", "b", "c", "d", "e", "f", "g", "h", "a"] =
        some ([Color.White, Color.Magenta, Color.Cyan, Color.Blue, Color.Green, Color.Yellow,
          Color.Red, Color.White, Color.Magenta], f) ∧
      f.ValueIndex.keys.Nodup ∧ f.ValueIndex.keys.length ≤ maxValues ∧
      f.ValueIndex.keys.toFinset.card ≤ maxValues ∧
      ∀ v w s t, f.ValueIndex.get v = some s → f.ValueIndex.get w = some t → v ≠ w →
        s ≠ t ∧ s < maxValues ∧ t < maxValues ∧ colors[s]? ≠ colors[t]? :=
  ⟨_, rfl,
    bounded_distinctness _
      (reachable_of_assignAll NewField ["a", "b", "c", "d", "e", "f", "g", "h", "a"] _ _
        Reachable.fresh rfl)⟩

/-- C8 (cache hit frame): in a tracker reachable from a fresh one, `assign` of a
value tracked at slot `s` returns `colors[s]` and changes neither `ValueIndex`
nor `Values` nor `NextIndex`; only `PrevDisplayedColor` is written, with the
returned colour. -/
theorem cache_hit_frame (f : Field) (v : String) (s : Nat) (hr : Reachable f)
    (hget : f.ValueIndex.get v = some s) :
    ∃ c f', assign f v = some (c, f') ∧ colors[s]? = some c ∧
      f'.ValueIndex = f.ValueIndex ∧ f'.Values = f.Values ∧ f'.NextIndex = f.NextIndex ∧
      f'.PrevDisplayedColor = c := by
  have hinv := inv_of_reachable f hr
  obtain ⟨c, hc, hass⟩ := assign_hit f v s (slot_lt_of_get f hinv v s hget) hget
  exact ⟨c, _, hass, hc, rfl, rfl, rfl, rfl⟩

theorem cache_hit_frame_witness :
    ∃ f, assignAll NewField ["a", "b", "c"] =
        some ([Color.White, Color.Magenta, Color.Cyan], f) ∧
      f.ValueIndex.get "b" = some 1 ∧
      ∃ c f', assign f "b" = some (c, f') ∧ colors[1]? = some c ∧
        f'.ValueIndex = f.ValueIndex ∧ f'.Values = f.Values ∧ f'.NextIndex = f.NextIndex ∧
        f'.PrevDisplayedColor = c :=
  ⟨_, rfl, by decide,
    cache_hit_frame _ "b" 1
      (reachable_of_assignAll NewField ["a", "b", "c"] _ _ Reachable.fresh rfl) (by decide)⟩

/-- C9 (postcondition of `assign`): in a tracker reachable from a fresh one,
`assign` of any value (tracked or not, the empty string included) succeeds;
afterwards the value is tracked at a slot `s < 7`, the colour returned is
`colors[s]`, and `PrevDisplayedColor` is the colour returned. -/
theorem assign_postcondition (f : Field) (v : String) (hr : Reachable f) :
    ∃ c f' s, assign f v = some (c, f') ∧ f'.ValueIndex.get v = some s ∧ s < maxValues ∧
      colors[s]? = some c ∧ f'.PrevDisplayedColor = c := by
  have hinv := inv_of_reachable f hr
  cases hget : f.ValueIndex.get v with
  | some s =>
    have hs := slot_lt_of_get f hinv v s hget
    obtain ⟨c, hc, hass⟩ := assign_hit f v s hs hget
    exact ⟨c, _, s, hass, hget, hs, hc, rfl⟩
  | none =>
    obtain ⟨vi, c, prev, hch, hvi, _, hass⟩ := assign_miss f v hinv.len hinv.next hget
    obtain ⟨vi', c', hch', _, hcol, _, _⟩ := chooseSlot_spec f hinv.next
    rw [hch] at hch'
    simp only [Option.some.injEq, Prod.mk.injEq] at hch'
    obtain ⟨rfl, rfl⟩ := hch'
    exact ⟨c, _, vi, hass, by simp [GoMap.get_set], hvi, hcol, rfl⟩

theorem assign_postcondition_witness :
    ∃ f, assignAll NewField ["", "x"] = some ([Color.White, Color.Magenta], f) ∧
      ∃ c f' s, assign f "" = some (c, f') ∧ f'.ValueIndex.get "" = some s ∧ s < maxValues ∧
        colors[s]? = some c ∧ f'.PrevDisplayedColor = c :=
  ⟨_, rfl,
    assign_postcondition _ ""
      (reachable_of_assignAll NewField ["", "x"] _ _ Reachable.fresh rfl)⟩

/-! ## Lines -/

theorem assign_NewField (v : String) :
    assign NewField v = some (Color.White, firstField v) := by
  simp [assign, NewField, firstField, chooseSlot, insertAt, setSlot, GoMap.get, GoMap.set,
    GoMap.delete, colors, maxValues, List.replicate]

theorem fieldLoop_fresh (n : Nat) (vs : List String) (pre : List Field) :
    ∃ es, fieldLoop n (pre ++ List.replicate vs.length NewField) pre.length vs =
        some (es, pre ++ vs.map firstField) ∧
      lineColors es = List.replicate vs.length Color.White := by
  induction vs generalizing pre with
  | nil => exact ⟨[], by simp [fieldLoop], rfl⟩
  | cons v vs ih =>
    obtain ⟨es, h1, h2⟩ := ih (pre ++ [firstField v])
    have hget : (pre ++ List.replicate (v :: vs).length NewField)[pre.length]? = some NewField := by
      rw [List.getElem?_append_right (Nat.le_refl _)]
      simp [List.replicate_succ]
    have hset : (pre ++ List.replicate (v :: vs).length NewField).set pre.length (firstField v) =
        (pre ++ [firstField v]) ++ List.replicate vs.length NewField := by
      simp [List.set_append_right, List.replicate_succ]
    have hlen : (pre ++ [firstField v]).length = pre.length + 1 := by simp
    rw [hlen] at h1
    refine ⟨{ color := Color.White, text := v,
              delim := decide ((pre.length : Int) < (n : Int) - 1) } :: es, ?_, ?_⟩
    · rw [fieldLoop, hget]
      simp only [assign_NewField, hset, h1]
      simp
    · simp only [lineColors, List.map_cons, List.length_cons, List.replicate_succ] at h2 ⊢
      rw [h2]

/-- C5 (reset on shape change): for every state and every line whose field
count differs from `numFields`, processing the line gives the same output and
the same resulting state as processing it from the initial state; every field
is coloured `White`, whatever was tracked before, and each resulting tracker
holds only the value of its column. -/
theorem reset_on_shape_change (st : State) (line : List String)
    (hne : line.length ≠ st.numFields) :
    ∃ es st', processLine st line = some (es, st') ∧
      processLine State.initial line = some (es, st') ∧
      lineColors es = List.replicate line.length Color.White ∧
      st'.numFields = line.length ∧ st'.fields = line.map firstField := by
  obtain ⟨es, h1, h2⟩ := fieldLoop_fresh line.length line []
  simp only [List.nil_append, List.length_nil] at h1
  refine ⟨es, { fields := line.map firstField, numFields := line.length }, ?_, ?_, h2, rfl, rfl⟩
  · simp [processLine, reshape, hne, h1]
  · by_cases h0 : line.length = 0
    · have hnil : line = [] := List.length_eq_zero.mp h0
      subst hnil
      simp [processLine, reshape, State.initial, fieldLoop] at h1 ⊢
      simpa using h1.symm
    · simp [processLine, reshape, State.initial, h0, h1]

theorem reset_on_shape_change_witness :
    ∃ st, processLines State.initial [["a", "x"], ["b", "x"]] =
        some ([[⟨Color.White, "a", true⟩, ⟨Color.White, "x", false⟩],
               [⟨Color.Magenta, "b", true⟩, ⟨Color.White, "x", false⟩]], st) ∧
      ["b", "x", "y"].length ≠ st.numFields ∧
      ∃ es st', processLine st ["b", "x", "y"] = some (es, st') ∧
        processLine State.initial ["b", "x", "y"] = some (es, st') ∧
        lineColors es = List.replicate ["b", "x", "y"].length Color.White ∧
        st'.numFields = ["b", "x", "y"].length ∧ st'.fields = ["b", "x", "y"].map firstField :=
  ⟨_, rfl, by decide, reset_on_shape_change _ ["b", "x", "y"] (by decide)⟩

theorem assign_succeeds (f : Field) (v : String) (hinv : Inv f) :
    ∃ c f', assign f v = some (c, f') := by
  cases hget : f.ValueIndex.get v with
  | some s =>
    obtain ⟨c, _, hass⟩ := assign_hit f v s (slot_lt_of_get f hinv v s hget) hget
    exact ⟨c, _, hass⟩
  | none =>
    obtain ⟨_, c, _, _, _, _, hass⟩ := assign_miss f v hinv.len hinv.next hget
    exact ⟨c, _, hass⟩

theorem fieldLoop_total (n : Nat) (vs : List String) (fields : List Field) (fi : Nat)
    (hlen : fi + vs.length ≤ fields.length) (hr : ∀ f ∈ fields, Reachable f) :
    ∃ es fields', fieldLoop n fields fi vs = some (es, fields') ∧
      fields'.length = fields.length ∧ ∀ f ∈ fields', Reachable f := by
  induction vs generalizing fields fi with
  | nil => exact ⟨[], fields, by simp [fieldLoop], rfl, hr⟩
  | cons v vs ih =>
    have hfi : fi < fields.length := by simp at hlen; omega
    have hf : Reachable fields[fi] := hr _ (List.getElem_mem hfi)
    obtain ⟨c, f', hass⟩ := assign_succeeds fields[fi] v (inv_of_reachable _ hf)
    have hr' : ∀ f ∈ fields.set fi f', Reachable f := by
      intro f hmem
      rcases List.mem_or_eq_of_mem_set hmem with h | h
      · exact hr f h
      · exact h ▸ Reachable.step hf hass
    obtain ⟨es, fields', h1, h2, h3⟩ := ih (fields.set fi f') (fi + 1)
      (by simp at hlen ⊢; omega) hr'
    refine ⟨{ color := c, text := v, delim := decide ((fi : Int) < (n : Int) - 1) } :: es,
      fields', ?_, by simpa using h2, h3⟩
    rw [fieldLoop, List.getElem?_eq_getElem hfi]
    simp only [hass, h1]

theorem stateOK_initial : StateOK State.initial := by
  simp [StateOK, State.initial]

theorem stateOK_reshape (st : State) (line : List String) (hok : StateOK st) :
    StateOK (reshape st line) ∧ (reshape st line).fields.length = line.length := by
  unfold reshape
  by_cases h : line.length ≠ st.numFields
  · rw [if_pos h]
    refine ⟨⟨by simp, ?_⟩, by simp⟩
    intro f hf
    rw [(List.mem_replicate.mp hf).2]
    exact Reachable.fresh
  · rw [if_neg h]
    exact ⟨hok, by rw [hok.1]; exact (not_not.mp h).symm⟩

theorem processLine_total (st : State) (line : List String) (hok : StateOK st) :
    ∃ es st', processLine st line = some (es, st') ∧ StateOK st' := by
  obtain ⟨hok', hlen⟩ := stateOK_reshape st line hok
  obtain ⟨es, fields', h1, h2, h3⟩ := fieldLoop_total (reshape st line).numFields line
    (reshape st line).fields 0 (by omega) hok'.2
  refine ⟨es, { fields := fields', numFields := (reshape st line).numFields }, ?_, ?_, h3⟩
  · simp only [processLine, h1]
  · simpa [h2] using hok'.1

theorem processLines_total (lines : List (List String)) (st : State) (hok : StateOK st) :
    ∃ out st', processLines st lines = some (out, st') ∧ StateOK st' := by
  induction lines generalizing st with
  | nil => exact ⟨[], st, rfl, hok⟩
  | cons l ls ih =>
    obtain ⟨es, st1, h1, hok1⟩ := processLine_total st l hok
    obtain ⟨out, st2, h2, hok2⟩ := ih st1 hok1
    exact ⟨es :: out, st2, by simp only [processLines, h1, h2], hok2⟩

/-- C10 (totality): processing any sequence of lines from the initial state
succeeds.  In the state reached there is one tracker per column, in every
tracker `NextIndex` and every slot stored in `ValueIndex` are below 7 and the
array has 7 slots, and for any next line, after the shape check, every column
index of that line has a tracker. -/
theorem totality (lines : List (List String)) :
    ∃ out st, processLines State.initial lines = some (out, st) ∧
      st.fields.length = st.numFields ∧
      (∀ f ∈ st.fields, f.NextIndex < maxValues ∧ f.Values.length = maxValues ∧
        ∀ v s, f.ValueIndex.get v = some s → s < maxValues ∧ ∃ c, colors[s]? = some c) ∧
      (∀ (l : List String) (i : Nat), i < l.length → ∃ f, (reshape st l).fields[i]? = some f) := by
  obtain ⟨out, st, h, hok⟩ := processLines_total lines State.initial stateOK_initial
  refine ⟨out, st, h, hok.1, ?_, ?_⟩
  · intro f hf
    have hinv := inv_of_reachable f (hok.2 f hf)
    refine ⟨hinv.next, hinv.len, ?_⟩
    intro v s hv
    have hs := slot_lt_of_get f hinv v s hv
    exact ⟨hs, colors_get_lt s hs⟩
  · intro l i hi
    have hlen := (stateOK_reshape st l hok).2
    exact ⟨_, List.getElem?_eq_getElem (by omega)⟩

/-- C6 (scenario): from the initial state, the three two-field lines `[a, b]`,
`[a, b]`, `[c, b]` with `a ≠ c` are processed without failure; column 0 is
coloured White, White, Magenta and column 1 White, White, White. -/
theorem scenario_three_lines (a b c : String) (hac : a ≠ c) :
    ∃ ess st, processLines State.initial [[a, b], [a, b], [c, b]] = some (ess, st) ∧
      columnColors 0 ess = [Color.White, Color.White, Color.Magenta] ∧
      columnColors 1 ess = [Color.White, Color.White, Color.White] := by
  have h1 : processLine State.initial [a, b] =
      some ([⟨Color.White, a, true⟩, ⟨Color.White, b, false⟩],
        { fields := [firstField a, firstField b], numFields := 2 }) := by
    simp [processLine, reshape, State.initial, fieldLoop, assign_NewField, List.replicate]
  have h2 : processLine { fields := [firstField a, firstField b], numFields := 2 } [a, b] =
      some ([⟨Color.White, a, true⟩, ⟨Color.White, b, false⟩],
        { fields := [firstField a, firstField b], numFields := 2 }) := by
    simp [processLine, reshape, fieldLoop, assign, firstField, GoMap.get, colors]
  have h3 : ∃ f, processLine { fields := [firstField a, firstField b], numFields := 2 } [c, b] =
      some ([⟨Color.Magenta, c, true⟩, ⟨Color.White, b, false⟩],
        { fields := [f, firstField b], numFields := 2 }) := by
    simp [processLine, reshape, fieldLoop, assign, firstField, GoMap.get, colors, hac,
      chooseSlot, insertAt, setSlot, maxValues]
  obtain ⟨f, h3⟩ := h3
  refine ⟨[[⟨Color.White, a, true⟩, ⟨Color.White, b, false⟩],
      [⟨Color.White, a, true⟩, ⟨Color.White, b, false⟩],
      [⟨Color.Magenta, c, true⟩, ⟨Color.White, b, false⟩]],
    { fields := [f, firstField b], numFields := 2 }, ?_, ?_, ?_⟩
  · simp only [processLines, h1, h2, h3]
  · simp [columnColors, lineColors]
  · simp [columnColors, lineColors]

theorem scenario_three_lines_witness :
    "a" ≠ "c" ∧
    ∃ ess st, processLines State.initial [["a", "b"], ["a", "b"], ["c", "b"]] = some (ess, st) ∧
      columnColors 0 ess = [Color.White, Color.White, Color.Magenta] ∧
      columnColors 1 ess = [Color.White, Color.White, Color.White] :=
  ⟨by decide, scenario_three_lines "a" "b" "c" (by decide)⟩

/-! ## Runs of pairwise distinct values on a fresh tracker -/

theorem assign_miss_at (f : Field) (v prev : String) (vi : Nat) (c : Color)
    (hget : f.ValueIndex.get v = none) (hch : chooseSlot f = some (vi, c))
    (hprev : f.Values[vi]? = some prev) :
    assign f v = some (c,
      { ValueIndex := (f.ValueIndex.delete prev).set v vi
        Values := f.Values.set vi v
        NextIndex := (vi + 1) % maxValues
        PrevDisplayedColor := c }) := by
  have hlt : vi < f.Values.length := (List.getElem?_eq_some.mp hprev).1
  simp [assign, hget, hch, insertAt, setSlot, hlt, hprev, colors]

theorem get_none_of_not_mem_keys (m : GoMap) (k : String) (h : k ∉ m.keys) :
    m.get k = none := by
  by_contra hne
  exact h ((GoMap.mem_keys_iff m k).mpr hne)

theorem filled_NewField : Filled [] NewField := by
  simp [Filled, NewField, maxValues, colors, GoMap.keys]

theorem filled_step (pre : List String) (f : Field) (v : String) (hF : Filled pre f)
    (hlen : pre.length < maxValues) (hv : v ∉ pre) :
    ∃ c f', colors[pre.length]? = some c ∧ assign f v = some (c, f') ∧
      Filled (pre ++ [v]) f' := by
  obtain ⟨hvals, hnext, hprevc, hkeys⟩ := hF
  have hget : f.ValueIndex.get v = none :=
    get_none_of_not_mem_keys _ _ (fun h => hv (hkeys v h))
  obtain ⟨c, hc⟩ := colors_get_lt pre.length hlen
  have hch : chooseSlot f = some (pre.length, c) := by
    simp only [maxValues] at hlen hnext hprevc
    have hk : ∃ k, pre.length = k := ⟨_, rfl⟩
    obtain ⟨k, hk⟩ := hk
    rw [hk] at hlen hnext hprevc hc ⊢
    interval_cases k <;> simp [colors] at hc hnext hprevc <;> subst hc <;>
      simp [chooseSlot, hnext, hprevc, colors]
  have hslot : f.Values[pre.length]? = some "" := by
    rw [hvals, List.getElem?_append_right (Nat.le_refl _)]
    simp only [maxValues] at hlen ⊢
    simp [List.getElem?_replicate]
    omega
  refine ⟨c, _, hc, assign_miss_at f v "" pre.length c hget hch hslot, ?_, ?_, ?_, ?_⟩
  · simp only [maxValues] at hlen hvals ⊢
    simp only [hvals, List.length_append, List.length_singleton]
    have h1 : 7 - pre.length = (7 - (pre.length + 1)) + 1 := by omega
    rw [h1, List.replicate_succ, List.set_append_right _ _ (Nat.le_refl _)]
    simp
  · simp
  · simp only [maxValues] at hlen ⊢
    have hk : ∃ k, pre.length = k := ⟨_, rfl⟩
    obtain ⟨k, hk⟩ := hk
    simp only [List.length_append, List.length_singleton]
    rw [hk] at hlen hc ⊢
    interval_cases k <;> simp [colors] at hc ⊢ <;> exact hc.symm
  · intro x hx
    have hx' : x = v ∨ x ∈ GoMap.keys ((f.ValueIndex.delete "").delete v) := by
      simpa [GoMap.set, GoMap.keys] using hx
    rcases hx' with h | h
    · simp [h]
    · have h1 := GoMap.keys_delete_subset _ _ _ (GoMap.keys_delete_subset _ _ _ h)
      simp [hkeys x h1]

theorem filled_run (vs pre : List String) (f : Field) (hF : Filled pre f)
    (hnd : (pre ++ vs).Nodup) (hlen : pre.length + vs.length ≤ maxValues) :
    ∃ f', assignAll f vs = some ((colors.drop pre.length).take vs.length, f') ∧
      Filled (pre ++ vs) f' := by
  induction vs generalizing pre f with
  | nil => exact ⟨f, by simp [assignAll], by simpa using hF⟩
  | cons v vs ih =>
    have hlt : pre.length < maxValues := by simp at hlen; omega
    have hv : v ∉ pre := by
      intro hmem
      have := List.nodup_append.mp hnd
      exact this.2.2 hmem (List.mem_cons_self v vs)
    obtain ⟨c, f1, hc, hass, hF1⟩ := filled_step pre f v hF hlt hv
    obtain ⟨f2, hrun, hF2⟩ := ih (pre ++ [v]) f1 hF1 (by simpa using hnd)
      (by simp at hlen ⊢; omega)
    refine ⟨f2, ?_, by simpa using hF2⟩
    simp only [assignAll, hass, hrun, List.length_append, List.length_singleton,
      List.length_cons]
    have hdrop : colors.drop pre.length = c :: colors.drop (pre.length + 1) := by
      have h1 := List.getElem?_eq_some.mp hc
      obtain ⟨h2, h3⟩ := h1
      rw [← h3]
      exact List.drop_eq_getElem_cons h2
    rw [hdrop]
    simp


/-- C7, as stated, fails: after the eight distinct values `a .. h` on a fresh
tracker, `h` was given `White` and `a` is no longer tracked, but the next
`assign` of `a` returns `Magenta`, not the colour `h` was given. -/
theorem eight_values_recolor_counterexample :
    ∃ f8 c9 f9, assignAll NewField ["a", "b", "c", "d", "e", "f", "g", "h"] =
        some ([Color.White, Color.Magenta, Color.Cyan, Color.Blue, Color.Green, Color.Yellow,
          Color.Red, Color.White], f8) ∧
      f8.ValueIndex.get "a" = none ∧
      assign f8 "a" = some (c9, f9) ∧ c9 = Color.Magenta ∧ c9 ≠ Color.White :=
  ⟨_, _, _, rfl, by decide, rfl, rfl, by decide⟩

/-- C7, amended (eight-value scenario): on a fresh tracker, eight pairwise
distinct values are given the colours of slots 0 to 6 and then of slot 0 again.
The eighth call reuses slot 0, the slot of the first value, so that the first
value is no longer tracked; a subsequent `assign` of the first value is a miss
that takes the next slot, slot 1, and returns `Magenta`, which is not the colour
`White` that the eighth value was given. -/
theorem eight_values_scenario (v1 v2 v3 v4 v5 v6 v7 v8 : String)
    (hnd : [v1, v2, v3, v4, v5, v6, v7, v8].Nodup) :
    ∃ f7 f8 f9, assignAll NewField [v1, v2, v3, v4, v5, v6, v7] =
        some ([Color.White, Color.Magenta, Color.Cyan, Color.Blue, Color.Green, Color.Yellow,
          Color.Red], f7) ∧
      f7.Values[0]? = some v1 ∧
      assign f7 v8 = some (Color.White, f8) ∧
      f8.ValueIndex.get v8 = some 0 ∧ f8.Values[0]? = some v8 ∧
      f8.ValueIndex.get v1 = none ∧
      assign f8 v1 = some (Color.Magenta, f9) ∧
      f9.ValueIndex.get v1 = some 1 ∧ Color.Magenta ≠ Color.White := by
  have hnd7 : ([] ++ [v1, v2, v3, v4, v5, v6, v7]).Nodup := by
    have hsub : List.Sublist [v1, v2, v3, v4, v5, v6, v7] [v1, v2, v3, v4, v5, v6, v7, v8] := by
      simp
    simpa using List.Nodup.sublist hsub hnd
  obtain ⟨f7, hrun, hvals, hnext, hprevc, hkeys⟩ :=
    filled_run [v1, v2, v3, v4, v5, v6, v7] [] NewField filled_NewField hnd7 (by simp [maxValues])
  simp only [List.nil_append, List.length_cons, List.length_nil, maxValues] at hvals hnext hprevc
  have hvals7 : f7.Values = [v1, v2, v3, v4, v5, v6, v7] := by simpa using hvals
  have hprev7 : f7.PrevDisplayedColor = Color.Red := by simpa [colors] using hprevc
  have hnext7 : f7.NextIndex = 0 := by simpa using hnext
  have hv8 : v8 ∉ [v1, v2, v3, v4, v5, v6, v7] := by
    intro hmem
    simp only [List.nodup_cons, List.mem_cons, List.mem_singleton, List.not_mem_nil,
      or_false, not_or] at hnd hmem
    tauto
  have hv18 : v8 ≠ v1 := by
    intro h
    apply hv8
    simp [h]
  have hget8 : f7.ValueIndex.get v8 = none :=
    get_none_of_not_mem_keys _ _ (fun h => hv8 (hkeys v8 h))
  have hch7 : chooseSlot f7 = some (0, Color.White) := by
    simp [chooseSlot, hnext7, hprev7, colors]
  have hass8 := assign_miss_at f7 v8 v1 0 Color.White hget8 hch7 (by simp [hvals7])
  have hget1 : GoMap.get ((f7.ValueIndex.delete v1).set v8 0) v1 = none := by
    simp [GoMap.get_set, GoMap.get_delete, hv18]
  have hass9 := assign_miss_at
    { ValueIndex := (f7.ValueIndex.delete v1).set v8 0, Values := f7.Values.set 0 v8,
      NextIndex := (0 + 1) % maxValues, PrevDisplayedColor := Color.White }
    v1 v2 1 Color.Magenta hget1
    (by simp [chooseSlot, colors, maxValues]) (by simp [hvals7])
  refine ⟨f7, _, _, ?_, by simp [hvals7], hass8, by simp [GoMap.get_set],
    by simp [hvals7], hget1, hass9, by simp [GoMap.get_set], by decide⟩
  simpa [colors] using hrun

theorem eight_values_scenario_witness :
    ["a", "b", "c", "d", "e", "f", "g", "h"].Nodup ∧
    ∃ f7 f8 f9, assignAll NewField ["a", "b", "c", "d", "e", "f", "g"] =
        some ([Color.White, Color.Magenta, Color.Cyan, Color.Blue, Color.Green, Color.Yellow,
          Color.Red], f7) ∧
      f7.Values[0]? = some "a" ∧
      assign f7 "h" = some (Color.White, f8) ∧
      f8.ValueIndex.get "h" = some 0 ∧ f8.Values[0]? = some "h" ∧
      f8.ValueIndex.get "a" = none ∧
      assign f8 "a" = some (Color.Magenta, f9) ∧
      f9.ValueIndex.get "a" = some 1 ∧ Color.Magenta ≠ Color.White :=
  ⟨by decide, eight_values_scenario "a" "b" "c" "d" "e" "f" "g" "h" (by decide)⟩

/-! ## Stability -/

theorem heldAt_step (v w : String) (s j : Nat) (g g' : Field) (c : Color) (hv : v ≠ "")
    (hH : HeldAt v s (2 * j) g) (hass : assign g w = some (c, g'))
    (hj : j + (if w ≠ v ∧ g.ValueIndex.get w = none then 1 else 0) ≤ 3) :
    HeldAt v s (2 * (j + (if w ≠ v ∧ g.ValueIndex.get w = none then 1 else 0))) g' := by
  obtain ⟨hinv, hget, hd⟩ := hH
  have hinv' := inv_assign g g' w c hinv hass
  have hs := slot_lt_of_get g hinv v s hget
  cases hw : g.ValueIndex.get w with
  | some t =>
    obtain ⟨c', _, hc'⟩ := assign_hit g w t (slot_lt_of_get g hinv w t hw) hw
    rw [hc'] at hass
    simp only [Option.some.injEq, Prod.mk.injEq] at hass
    obtain ⟨_, rfl⟩ := hass
    refine ⟨hinv', hget, ?_⟩
    simpa using hd
  | none =>
    have hwv : w ≠ v := by
      rintro rfl
      rw [hget] at hw
      cases hw
    simp only [hw, hwv, ne_eq, not_false_eq_true, and_self, if_true] at hj ⊢
    obtain ⟨vi, c', prev, hch, hvi, hprev, hc'⟩ := assign_miss g w hinv.len hinv.next hw
    obtain ⟨vi', c'', hch', _, _, _, hor⟩ := chooseSlot_spec g hinv.next
    rw [hch] at hch'
    simp only [Option.some.injEq, Prod.mk.injEq] at hch'
    obtain ⟨rfl, rfl⟩ := hch'
    rw [hc'] at hass
    simp only [Option.some.injEq, Prod.mk.injEq] at hass
    obtain ⟨_, rfl⟩ := hass
    have hnext := hinv.next
    simp only [maxValues] at hd hs hvi hor hnext ⊢
    have hne : vi ≠ s := by omega
    have hpv : prev ≠ v := by
      rintro rfl
      have h1 := hinv.bwd vi prev hprev hv
      rw [hget] at h1
      exact hne (by simpa using h1.symm)
    refine ⟨hinv', ?_, ?_⟩
    · simp [GoMap.get_set, GoMap.get_delete, hwv, hpv, hget]
    · simp only [maxValues]
      omega

theorem heldAt_advance (v w : String) (s d : Nat) (g g' : Field) (c : Color) (hv : v ≠ "")
    (hH : HeldAt v s d g) (hass : assign g w = some (c, g'))
    (hd : d + slotAdvance v w g ≤ 6) :
    HeldAt v s (d + slotAdvance v w g) g' := by
  obtain ⟨hinv, hget, hdist⟩ := hH
  have hinv' := inv_assign g g' w c hinv hass
  have hs := slot_lt_of_get g hinv v s hget
  cases hw : g.ValueIndex.get w with
  | some t =>
    obtain ⟨c', _, hc'⟩ := assign_hit g w t (slot_lt_of_get g hinv w t hw) hw
    rw [hc'] at hass
    simp only [Option.some.injEq, Prod.mk.injEq] at hass
    obtain ⟨_, rfl⟩ := hass
    refine ⟨hinv', hget, ?_⟩
    simp only [slotAdvance, hw] at hd ⊢
    simpa using hdist
  | none =>
    have hwv : w ≠ v := by
      rintro rfl
      rw [hget] at hw
      cases hw
    obtain ⟨vi, c', prev, hch, hvi, hprev, hc'⟩ := assign_miss g w hinv.len hinv.next hw
    have hslot := chooseSlot_eq g vi c' hch
    rw [hc'] at hass
    simp only [Option.some.injEq, Prod.mk.injEq] at hass
    obtain ⟨_, rfl⟩ := hass
    have hnext := hinv.next
    simp only [slotAdvance, hw, hwv, ne_eq, not_false_eq_true, and_self, if_true] at hd ⊢
    simp only [maxValues] at hdist hs hvi hslot hnext ⊢
    have hne : vi ≠ s := by
      by_cases hskip : colors[g.NextIndex]? = some g.PrevDisplayedColor
      · rw [if_pos hskip] at hslot hd
        omega
      · rw [if_neg hskip] at hslot hd
        omega
    have hpv : prev ≠ v := by
      rintro rfl
      have h1 := hinv.bwd vi prev hprev hv
      rw [hget] at h1
      exact hne (by simpa using h1.symm)
    refine ⟨hinv', ?_, ?_⟩
    · simp [GoMap.get_set, GoMap.get_delete, hwv, hpv, hget]
    · simp only [maxValues]
      by_cases hskip : colors[g.NextIndex]? = some g.PrevDisplayedColor
      · rw [if_pos hskip] at hslot hd ⊢
        omega
      · rw [if_neg hskip] at hslot hd ⊢
        omega

theorem heldAt_advances (v : String) (s : Nat) (hv : v ≠ "") (ws : List String) (d : Nat)
    (g g2 : Field) (cs : List Color) (hH : HeldAt v s d g)
    (hrun : assignAll g ws = some (cs, g2)) (hd : d + slotAdvances v g ws ≤ 6) :
    HeldAt v s (d + slotAdvances v g ws) g2 := by
  induction ws generalizing d g cs with
  | nil =>
    simp only [assignAll, Option.some.injEq, Prod.mk.injEq] at hrun
    obtain ⟨_, rfl⟩ := hrun
    simpa [slotAdvances] using hH
  | cons w ws ih =>
    simp only [assignAll] at hrun
    split at hrun
    · cases hrun
    · rename_i c g1 hass
      split at hrun
      · cases hrun
      · rename_i cs1 g3 hrun1
        simp only [Option.some.injEq, Prod.mk.injEq] at hrun
        obtain ⟨_, rfl⟩ := hrun
        have hunf : slotAdvances v g (w :: ws) = slotAdvance v w g + slotAdvances v g1 ws := by
          simp only [slotAdvances, hass, slotAdvance]
        rw [hunf] at hd ⊢
        have hstep := heldAt_advance v w s d g g1 c hv hH hass (by omega)
        have hfin := ih _ g1 cs1 hstep hrun1 (by omega)
        rwa [Nat.add_assoc] at hfin

/-- C2, amended (stability): in a tracker reachable from a fresh one, let `v`
be a non-empty value that is not tracked, and let `assign` insert it and return
colour `c`.  After any run of `assign` calls in which the insertions of novel
values other than `v` consume at most `K - 1 = 6` slots, an insertion at which
the anti-repeat skip fires counting for two (cache hits may occur in any
number), `v` is still tracked at its slot and a further `assign` of `v`
returns `c`.  In particular this holds after 6 novel values inserted without a
skip. -/
theorem stability_six_advances (f f1 f2 : Field) (v : String) (c : Color) (ws : List String)
    (cs : List Color) (hr : Reachable f) (hv : v ≠ "")
    (hnovel : f.ValueIndex.get v = none)
    (hass : assign f v = some (c, f1))
    (hrun : assignAll f1 ws = some (cs, f2))
    (hcount : slotAdvances v f1 ws ≤ 6) :
    ∃ s f3, f1.ValueIndex.get v = some s ∧ f2.ValueIndex.get v = some s ∧
      colors[s]? = some c ∧ assign f2 v = some (c, f3) := by
  have hinv := inv_of_reachable f hr
  obtain ⟨vi, c', prev, hch, hvi, hprev, hc'⟩ := assign_miss f v hinv.len hinv.next hnovel
  obtain ⟨vi', c'', hch', _, hcol, _, _⟩ := chooseSlot_spec f hinv.next
  rw [hch] at hch'
  simp only [Option.some.injEq, Prod.mk.injEq] at hch'
  obtain ⟨rfl, rfl⟩ := hch'
  have hinv1 := inv_assign f f1 v c hinv hass
  rw [hc'] at hass
  simp only [Option.some.injEq, Prod.mk.injEq] at hass
  obtain ⟨rfl, hf1⟩ := hass
  have hget1 : f1.ValueIndex.get v = some vi := by
    rw [← hf1]
    simp [GoMap.get_set]
  have hH : HeldAt v vi 0 f1 := by
    refine ⟨hinv1, hget1, ?_⟩
    rw [← hf1]
    simp only [maxValues] at hvi ⊢
    omega
  obtain ⟨_, hget2, _⟩ := heldAt_advances v vi hv ws 0 f1 f2 cs hH hrun (by omega)
  obtain ⟨c2, hc2, hass2⟩ := assign_hit f2 v vi hvi hget2
  rw [hcol] at hc2
  simp only [Option.some.injEq] at hc2
  subst hc2
  exact ⟨vi, _, hget1, hget2, hcol, hass2⟩

theorem stability_six_advances_witness :
    ∃ f f1 f2 cs, assignAll NewField ["a", "b", "c", "d", "e", "f", "g"] =
        some ([Color.White, Color.Magenta, Color.Cyan, Color.Blue, Color.Green, Color.Yellow,
          Color.Red], f) ∧
      "v" ≠ "" ∧ f.ValueIndex.get "v" = none ∧
      assign f "v" = some (Color.White, f1) ∧
      assignAll f1 ["b", "n1", "d", "n2", "n3", "n4"] = some (cs, f2) ∧
      novelOthers "v" f1 ["b", "n1", "d", "n2", "n3", "n4"] = 4 ∧
      slotAdvances "v" f1 ["b", "n1", "d", "n2", "n3", "n4"] ≤ 6 ∧
      ∃ s f3, f1.ValueIndex.get "v" = some s ∧ f2.ValueIndex.get "v" = some s ∧
        colors[s]? = some Color.White ∧ assign f2 "v" = some (Color.White, f3) :=
  ⟨_, _, _, _, rfl, by decide, by decide, rfl, rfl, by decide, by decide,
    stability_six_advances _ _ _ "v" Color.White ["b", "n1", "d", "n2", "n3", "n4"] _
      (reachable_of_assignAll NewField ["a", "b", "c", "d", "e", "f", "g"] _ _
        Reachable.fresh rfl)
      (by decide) (by decide) rfl rfl (by decide)⟩

/-- C2, as stated, fails in three ways.  (1) After `a .. g` fill a fresh
tracker, `v` is inserted with colour `White`; the run `b, n1, d, n2, f, n3, n4`
inserts only 4 novel values (three of them with the anti-repeat skip, 7 slots in
all), yet `v` is evicted and is then given `Magenta`.
(2) On a fresh tracker the empty string is given `White`; one novel value `x`
later it is given `Cyan`.  (3) After `a .. g`, the tracked value `b` is returned
`Magenta`; after a hit on `a` and one novel value `n`, it is given `Cyan`. -/
theorem stability_six_counterexample :
    (∃ f f1 cs f2 c3 f3,
      assignAll NewField ["a", "b", "c", "d", "e", "f", "g"] =
        some ([Color.White, Color.Magenta, Color.Cyan, Color.Blue, Color.Green, Color.Yellow,
          Color.Red], f) ∧
      Reachable f ∧ f.ValueIndex.get "v" = none ∧
      assign f "v" = some (Color.White, f1) ∧
      assignAll f1 ["b", "n1", "d", "n2", "f", "n3", "n4"] = some (cs, f2) ∧
      novelOthers "v" f1 ["b", "n1", "d", "n2", "f", "n3", "n4"] = 4 ∧
      slotAdvances "v" f1 ["b", "n1", "d", "n2", "f", "n3", "n4"] = 7 ∧
      assign f2 "v" = some (c3, f3) ∧ c3 = Color.Magenta ∧ c3 ≠ Color.White) ∧
    (∃ f1 cs f2 c3 f3, assign NewField "" = some (Color.White, f1) ∧
      assignAll f1 ["x"] = some (cs, f2) ∧ novelOthers "" f1 ["x"] = 1 ∧
      assign f2 "" = some (c3, f3) ∧ c3 = Color.Cyan ∧ c3 ≠ Color.White) ∧
    (∃ f f1 cs f2 c3 f3,
      assignAll NewField ["a", "b", "c", "d", "e", "f", "g"] =
        some ([Color.White, Color.Magenta, Color.Cyan, Color.Blue, Color.Green, Color.Yellow,
          Color.Red], f) ∧
      Reachable f ∧ f.ValueIndex.get "b" = some 1 ∧
      assign f "b" = some (Color.Magenta, f1) ∧
      assignAll f1 ["a", "n"] = some (cs, f2) ∧ novelOthers "b" f1 ["a", "n"] = 1 ∧
      assign f2 "b" = some (c3, f3) ∧ c3 = Color.Cyan ∧ c3 ≠ Color.Magenta) :=
  ⟨⟨_, _, _, _, _, _, rfl,
      reachable_of_assignAll NewField ["a", "b", "c", "d", "e", "f", "g"] _ _
        Reachable.fresh rfl,
      by decide, rfl, rfl, by decide, by decide, rfl, rfl, by decide⟩,
    ⟨_, _, _, _, _, rfl, rfl, by decide, rfl, rfl, by decide⟩,
    ⟨_, _, _, _, _, _, rfl,
      reachable_of_assignAll NewField ["a", "b", "c", "d", "e", "f", "g"] _ _
        Reachable.fresh rfl,
      by decide, rfl, rfl, by decide, rfl, rfl, by decide⟩⟩

/-! ## Order of eviction -/

theorem stamp_set (t : Timed) (s r n : Nat) (hs : s < t.stamps.length) :
    (t.stamps.set s n).getD r 0 = if s = r then n else t.stamps.getD r 0 := by
  simp only [List.getD_eq_getElem?_getD, List.getElem?_set]
  by_cases h : s = r
  · subst h
    simp [hs]
  · simp [h]

theorem invT_fresh : InvT Timed.fresh := by
  refine ⟨inv_NewField, by simp [Timed.fresh], ?_, by simp [Timed.fresh], ?_, ?_⟩
  · intro s
    simp [Timed.stamp, Timed.fresh, List.getD_eq_getElem?_getD, List.getElem?_replicate]
    split <;> simp
  · intro s r _ _ _ h
    exfalso
    apply h
    simp [Timed.stamp, Timed.fresh, List.getD_eq_getElem?_getD, List.getElem?_replicate]
    split <;> simp
  · intro i hi
    simp [Timed.fresh] at hi

theorem assignT_hit (t : Timed) (v : String) (s : Nat) (hinv : Inv t.field)
    (hget : t.field.ValueIndex.get v = some s) :
    ∃ c, colors[s]? = some c ∧
      assignT t v = some (c, { t with field := { t.field with PrevDisplayedColor := c } }) := by
  obtain ⟨c, hc, hass⟩ := assign_hit t.field v s (slot_lt_of_get _ hinv v s hget) hget
  exact ⟨c, hc, by simp [assignT, hass, hget]⟩

theorem assignT_miss (t : Timed) (v : String) (hinv : Inv t.field)
    (hget : t.field.ValueIndex.get v = none) :
    ∃ vi c prev, chooseSlot t.field = some (vi, c) ∧ vi < maxValues ∧
      t.field.Values[vi]? = some prev ∧
      assignT t v = some (c,
        { field :=
            { ValueIndex := (t.field.ValueIndex.delete prev).set v vi
              Values := t.field.Values.set vi v
              NextIndex := (vi + 1) % maxValues
              PrevDisplayedColor := c }
          stamps := t.stamps.set vi (t.count + 1)
          count := t.count + 1
          streak := if vi = t.field.NextIndex then t.streak + 1 else 1 }) := by
  obtain ⟨vi, c, prev, hch, hvi, hprev, hass⟩ :=
    assign_miss t.field v hinv.len hinv.next hget
  exact ⟨vi, c, prev, hch, hvi, hprev, by simp [assignT, hass, hget, GoMap.get_set]⟩

theorem invT_assignT (t t' : Timed) (v : String) (c : Color) (hinv : InvT t)
    (h : assignT t v = some (c, t')) : InvT t' := by
  cases hget : t.field.ValueIndex.get v with
  | some s =>
    obtain ⟨c', _, hc'⟩ := assignT_hit t v s hinv.inv hget
    rw [hc'] at h
    simp only [Option.some.injEq, Prod.mk.injEq] at h
    obtain ⟨_, rfl⟩ := h
    exact ⟨⟨hinv.inv.len, hinv.inv.next, hinv.inv.nodup, hinv.inv.fwd, hinv.inv.bwd⟩,
      hinv.len, hinv.le, hinv.streak_le, hinv.inj, hinv.recent⟩
  | none =>
    obtain ⟨vi, c', prev, hch, hvi, hprev, hc'⟩ := assignT_miss t v hinv.inv hget
    obtain ⟨vi', c'', hch', _, _, _, hor⟩ := chooseSlot_spec t.field hinv.inv.next
    rw [hch] at hch'
    simp only [Option.some.injEq, Prod.mk.injEq] at hch'
    obtain ⟨rfl, rfl⟩ := hch'
    have hfield : Inv t'.field := by
      have h1 : ∃ c1, assign t.field v = some (c1, t'.field) := by
        simp only [assignT] at h
        split at h
        · cases h
        · rename_i c1 f1 hass
          rw [hget] at h
          simp only [Option.some.injEq, Prod.mk.injEq] at h
          obtain ⟨_, rfl⟩ := h
          exact ⟨c1, hass⟩
      obtain ⟨c1, h1⟩ := h1
      exact inv_assign _ _ _ _ hinv.inv h1
    rw [hc'] at h
    simp only [Option.some.injEq, Prod.mk.injEq] at h
    obtain ⟨_, rfl⟩ := h
    have hlen := hinv.len
    have hvl : vi < t.stamps.length := by omega
    have hnext := hinv.inv.next
    have hstamp : ∀ r, (t.stamps.set vi (t.count + 1)).getD r 0 =
        if vi = r then t.count + 1 else t.stamps.getD r 0 := fun r => stamp_set t vi r _ hvl
    have hle : ∀ s, t.stamps.getD s 0 ≤ t.count := hinv.le
    have hinj : ∀ s r, s < maxValues → r < maxValues →
        t.stamps.getD s 0 = t.stamps.getD r 0 → t.stamps.getD s 0 ≠ 0 → s = r := hinv.inj
    have hrecent : ∀ i, i < t.streak → i < maxValues →
        t.stamps.getD ((t.field.NextIndex + 6 - i) % maxValues) 0 = t.count - i := hinv.recent
    refine ⟨hfield, by simpa using hinv.len, ?_, ?_, ?_, ?_⟩
    · intro s
      have := hle s
      simp only [Timed.stamp, hstamp]
      split <;> omega
    · have := hinv.streak_le
      simp only
      split <;> omega
    · intro s r hs hr heq hne
      have h1 := hle s
      have h2 := hle r
      simp only [Timed.stamp, hstamp] at heq hne
      by_cases hsv : vi = s
      · by_cases hrv : vi = r
        · omega
        · rw [if_pos hsv, if_neg hrv] at heq
          omega
      · by_cases hrv : vi = r
        · rw [if_neg hsv, if_pos hrv] at heq
          omega
        · rw [if_neg hsv, if_neg hrv] at heq
          rw [if_neg hsv] at hne
          exact hinj s r hs hr heq hne
    · intro i hi hi7
      dsimp only at hi
      simp only [Timed.stamp, hstamp]
      simp only [maxValues] at hvi hnext hor hi7 hrecent ⊢
      by_cases h0 : i = 0
      · subst h0
        have hslot : vi = ((vi + 1) % 7 + 6 - 0) % 7 := by omega
        rw [if_pos hslot]
        omega
      · by_cases hskip : vi = t.field.NextIndex
        · rw [if_pos hskip] at hi
          have hrec := hrecent (i - 1) (by omega) (by omega)
          have hslot : ((vi + 1) % 7 + 6 - i) % 7 =
              (t.field.NextIndex + 6 - (i - 1)) % 7 := by omega
          have hne : ¬ vi = ((vi + 1) % 7 + 6 - i) % 7 := by omega
          rw [if_neg hne, hslot, hrec]
          omega
        · rw [if_neg hskip] at hi
          omega

theorem invT_of_reachableT (t : Timed) (h : ReachableT t) : InvT t := by
  induction h with
  | fresh => exact invT_fresh
  | step _ hstep ih => exact invT_assignT _ _ _ _ ih hstep


theorem reachable_of_reachableT (t : Timed) (h : ReachableT t) : Reachable t.field := by
  induction h with
  | fresh => exact Reachable.fresh
  | @step t0 t1 v c _ hstep ih =>
    simp only [assignT] at hstep
    split at hstep
    · cases hstep
    · rename_i c1 f1 hass
      have hf : t1.field = f1 := by
        split at hstep <;>
          (simp only [Option.some.injEq, Prod.mk.injEq] at hstep
           obtain ⟨_, rfl⟩ := hstep
           rfl)
      exact hf ▸ Reachable.step ih hass

theorem every_slot_tracked (f : Field) (hinv : Inv f)
    (hfull : f.ValueIndex.keys.length = maxValues) (s : Nat) (hs : s < maxValues) :
    ∃ u, f.ValueIndex.get u = some s := by
  have hcard : f.ValueIndex.keys.toFinset.card = maxValues := by
    rw [List.toFinset_card_of_nodup hinv.nodup, hfull]
  have hinjOn : Set.InjOn (fun k => (f.ValueIndex.get k).getD 0)
      (f.ValueIndex.keys.toFinset : Set String) := by
    intro k hk k' hk' heq
    have h1 : k ∈ f.ValueIndex.keys := by simpa using hk
    have h2 : k' ∈ f.ValueIndex.keys := by simpa using hk'
    rw [GoMap.mem_keys_iff] at h1 h2
    obtain ⟨a, ha⟩ := Option.ne_none_iff_exists'.mp h1
    obtain ⟨b, hb⟩ := Option.ne_none_iff_exists'.mp h2
    simp only [ha, hb, Option.getD_some] at heq
    subst heq
    have h3 := hinv.fwd k a ha
    rw [hinv.fwd k' a hb] at h3
    simpa using h3.symm
  have himg : (f.ValueIndex.keys.toFinset.image (fun k => (f.ValueIndex.get k).getD 0)) =
      Finset.range maxValues := by
    apply Finset.eq_of_subset_of_card_le
    · intro x hx
      obtain ⟨k, hk, rfl⟩ := Finset.mem_image.mp hx
      have h1 : k ∈ f.ValueIndex.keys := by simpa using hk
      rw [GoMap.mem_keys_iff] at h1
      obtain ⟨a, ha⟩ := Option.ne_none_iff_exists'.mp h1
      simpa [ha] using slot_lt_of_get f hinv k a ha
    · rw [Finset.card_image_of_injOn hinjOn, hcard]
      simp
  have hmem : s ∈ Finset.range maxValues := by simpa using hs
  rw [← himg] at hmem
  obtain ⟨k, hk, hks⟩ := Finset.mem_image.mp hmem
  have h1 : k ∈ f.ValueIndex.keys := by simpa using hk
  rw [GoMap.mem_keys_iff] at h1
  obtain ⟨a, ha⟩ := Option.ne_none_iff_exists'.mp h1
  simp only [ha, Option.getD_some] at hks
  exact ⟨k, hks ▸ ha⟩

theorem reachableT_of_assignAllT (t : Timed) (vs : List String) (t' : Timed)
    (hr : ReachableT t) (h : assignAllT t vs = some t') : ReachableT t' := by
  induction vs generalizing t with
  | nil =>
    simp only [assignAllT, Option.some.injEq] at h
    exact h ▸ hr
  | cons v vs ih =>
    simp only [assignAllT] at h
    split at h
    · cases h
    · rename_i c t1 h1
      exact ih t1 (ReachableT.step hr h1) h

/-- C4, amended (eviction order): in a recorded tracker reachable from a fresh
one in which 7 values are tracked, a novel value `v` takes slot `s`, which is
`NextIndex`, or the slot after it when `colors[NextIndex]` is the colour shown
last.  It is given `colors[s]`; exactly the occupant `e` of slot `s` is evicted
and every other tracked value keeps its slot.  When the five most recent
insertions were made without the anti-repeat skip (`6 ≤ streak`), no tracked
value other than the occupant of `NextIndex` was inserted before `e`: without
a skip at this call `e` is the least recently inserted tracked value. -/
theorem eviction_order (t : Timed) (v : String) (hr : ReachableT t)
    (hfull : t.field.ValueIndex.keys.length = maxValues)
    (hv : t.field.ValueIndex.get v = none) :
    ∃ s c t' e, assignT t v = some (c, t') ∧
      s = (if colors[t.field.NextIndex]? = some t.field.PrevDisplayedColor
           then (t.field.NextIndex + 1) % maxValues else t.field.NextIndex) ∧
      colors[s]? = some c ∧
      t.field.ValueIndex.get e = some s ∧ t'.field.ValueIndex.get e = none ∧
      t'.field.ValueIndex.get v = some s ∧
      (∀ u, u ≠ e → u ≠ v → t'.field.ValueIndex.get u = t.field.ValueIndex.get u) ∧
      (6 ≤ t.streak → ∀ u r, t.field.ValueIndex.get u = some r → r ≠ t.field.NextIndex →
        t.stamp s ≤ t.stamp r) := by
  have hinvT := invT_of_reachableT t hr
  have hinv := hinvT.inv
  obtain ⟨vi, c, prev, hch, hvi, hprev, hass⟩ := assignT_miss t v hinv hv
  obtain ⟨vi', c', hch', _, hcol, _, hor⟩ := chooseSlot_spec t.field hinv.next
  rw [hch] at hch'
  simp only [Option.some.injEq, Prod.mk.injEq] at hch'
  obtain ⟨rfl, rfl⟩ := hch'
  obtain ⟨e, he⟩ := every_slot_tracked t.field hinv hfull vi hvi
  have hprev_e : prev = e := by
    have h1 := hinv.fwd e vi he
    rw [hprev] at h1
    simpa using h1
  subst hprev_e
  have hev : v ≠ prev := by
    rintro rfl
    rw [hv] at he
    cases he
  refine ⟨vi, c, _, prev, hass, chooseSlot_eq t.field vi c hch, hcol, he, ?_, ?_, ?_, ?_⟩
  · simp [GoMap.get_set, GoMap.get_delete, hev]
  · simp [GoMap.get_set]
  · intro u hue huv
    simp [GoMap.get_set, GoMap.get_delete, Ne.symm hue, Ne.symm huv]
  · intro hstreak u r hu hrn
    have hr7 := slot_lt_of_get t.field hinv u r hu
    have hnext := hinv.next
    have hrecent := hinvT.recent
    have hcount := hinvT.streak_le
    simp only [maxValues] at hr7 hnext hrecent hvi hor
    have hri := hrecent ((t.field.NextIndex + 6 - r) % 7) (by omega) (by omega)
    have hslot : (t.field.NextIndex + 6 - (t.field.NextIndex + 6 - r) % 7) % 7 = r := by omega
    rw [hslot] at hri
    rcases hor with hs | hs
    · -- no skip: slot `NextIndex` holds the oldest stamp
      rw [hs]
      by_contra hlt
      have hle := hinvT.le t.field.NextIndex
      have hj := hrecent (t.count - t.stamp t.field.NextIndex) (by omega) (by omega)
      have heq : t.stamp t.field.NextIndex =
          t.stamp ((t.field.NextIndex + 6 - (t.count - t.stamp t.field.NextIndex)) % 7) := by
        rw [hj]
        omega
      have h7 : (t.field.NextIndex + 6 - (t.count - t.stamp t.field.NextIndex)) % 7 <
          maxValues := by
        simp only [maxValues]
        omega
      have := hinvT.inj t.field.NextIndex _ (by simp only [maxValues]; omega) h7 heq (by omega)
      omega
    · -- skip: the slot after `NextIndex` was written five insertions ago
      have h5 := hrecent 5 (by omega) (by omega)
      have hslot5 : (t.field.NextIndex + 6 - 5) % 7 = vi := by omega
      rw [hslot5] at h5
      omega


theorem eviction_order_witness :
    ∃ t, assignAllT Timed.fresh ["a", "b", "c", "d", "e", "f", "g"] = some t ∧
      t.field.ValueIndex.keys.length = maxValues ∧ t.field.ValueIndex.get "h" = none ∧
      6 ≤ t.streak ∧
      ∃ s c t' e, assignT t "h" = some (c, t') ∧
        s = (if colors[t.field.NextIndex]? = some t.field.PrevDisplayedColor
             then (t.field.NextIndex + 1) % maxValues else t.field.NextIndex) ∧
        colors[s]? = some c ∧
        t.field.ValueIndex.get e = some s ∧ t'.field.ValueIndex.get e = none ∧
        t'.field.ValueIndex.get "h" = some s ∧
        (∀ u, u ≠ e → u ≠ "h" → t'.field.ValueIndex.get u = t.field.ValueIndex.get u) ∧
        (6 ≤ t.streak → ∀ u r, t.field.ValueIndex.get u = some r → r ≠ t.field.NextIndex →
          t.stamp s ≤ t.stamp r) :=
  ⟨_, rfl, by decide, by decide, by decide,
    eviction_order _ "h"
      (reachableT_of_assignAllT Timed.fresh ["a", "b", "c", "d", "e", "f", "g"] _
        ReachableT.fresh rfl)
      (by decide) (by decide)⟩

/-- C4, as stated, fails: after `a .. g` fill a fresh tracker, a hit on `a` and
the novel value `h` (which skips slot 0 and takes slot 1), seven values are
tracked.  The novel value `i` then takes slot `NextIndex = 2` without a skip
and evicts `c`, the third value inserted, although `a`, the first value
inserted, is still tracked in slot 0; `i` is given `Cyan`, not the least
recently assigned colour `White`. -/
theorem fifo_eviction_counterexample :
    ∃ t c t', assignAllT Timed.fresh ["a", "b", "c", "d", "e", "f", "g", "a", "h"] = some t ∧
      t.field.ValueIndex.keys.length = maxValues ∧ t.field.ValueIndex.get "i" = none ∧
      assignT t "i" = some (c, t') ∧
      t.field.NextIndex = 2 ∧ colors[t.field.NextIndex]? ≠ some t.field.PrevDisplayedColor ∧
      t.field.ValueIndex.get "c" = some 2 ∧ t'.field.ValueIndex.get "c" = none ∧
      t'.field.ValueIndex.get "i" = some 2 ∧ c = Color.Cyan ∧
      t.field.ValueIndex.get "a" = some 0 ∧ t'.field.ValueIndex.get "a" = some 0 ∧
      t.stamp 0 = 1 ∧ t.stamp 2 = 3 ∧ t.stamp 0 < t.stamp 2 :=
  ⟨_, _, _, rfl, by decide, by decide, rfl, by decide, by decide, by decide, by decide,
    by decide, rfl, by decide, by decide, by decide, by decide, by decide⟩

/-! ## Inverse invariant and cursor -/

/-- C13 (inverse invariant): in a tracker reachable from a fresh one, every map
entry `(v, s)` has `Values[s] = v`, and every slot `s` whose string `Values[s]`
is not the empty sentinel has the map entry `ValueIndex[Values[s]] = s`. -/
theorem inverse_invariant (f : Field) (hr : Reachable f) :
    (∀ v s, f.ValueIndex.get v = some s → s < maxValues ∧ f.Values[s]? = some v) ∧
    (∀ s v, s < maxValues → f.Values[s]? = some v → v ≠ "" → f.ValueIndex.get v = some s) := by
  have hinv := inv_of_reachable f hr
  refine ⟨?_, ?_⟩
  · intro v s h
    exact ⟨slot_lt_of_get f hinv v s h, hinv.fwd v s h⟩
  · intro s v _ h hne
    exact hinv.bwd s v h hne

theorem inverse_invariant_witness :
    ∃ f, assignAll NewField ["a", "b", "c", "d", "e", "f", "g", "b", "h", "i"] =
        some ([Color.White, Color.Magenta, Color.Cyan, Color.Blue, Color.Green, Color.Yellow,
          Color.Red, Color.Magenta, Color.White, Color.Magenta], f) ∧
      (∀ v s, f.ValueIndex.get v = some s → s < maxValues ∧ f.Values[s]? = some v) ∧
      (∀ s v, s < maxValues → f.Values[s]? = some v → v ≠ "" → f.ValueIndex.get v = some s) :=
  ⟨_, rfl,
    inverse_invariant _
      (reachable_of_assignAll NewField ["a", "b", "c", "d", "e", "f", "g", "b", "h", "i"] _ _
        Reachable.fresh rfl)⟩

/-- C14, as stated, fails: after `a .. g` fill a fresh tracker, `NextIndex` is
0; a hit on `a` makes `White` the colour shown last, so the novel value `h`
skips slot 0, takes slot 1, and `NextIndex` becomes 2, not `(0 + 1) mod 7`. -/
theorem cursor_step_counterexample :
    ∃ f c f', assignAll NewField ["a", "b", "c", "d", "e", "f", "g", "a"] =
        some ([Color.White, Color.Magenta, Color.Cyan, Color.Blue, Color.Green, Color.Yellow,
          Color.Red, Color.White], f) ∧
      f.ValueIndex.get "h" = none ∧ f.NextIndex = 0 ∧
      assign f "h" = some (c, f') ∧ f'.NextIndex = 2 ∧
      f'.NextIndex ≠ (f.NextIndex + 1) % maxValues :=
  ⟨_, _, _, rfl, by decide, rfl, rfl, rfl, by decide⟩

/-- C14, amended (cursor step): in a tracker reachable from a fresh one, the
insertion of a novel value takes slot `s`, which is `NextIndex`, or the slot
after it when `colors[NextIndex]` is the colour shown last, and leaves
`NextIndex = (s + 1) mod 7`: the cursor advances by 1, or by 2 when the
anti-repeat skip fires. -/
theorem cursor_step (f : Field) (v : String) (hr : Reachable f)
    (hv : f.ValueIndex.get v = none) :
    ∃ c f' s, assign f v = some (c, f') ∧ f'.ValueIndex.get v = some s ∧
      f'.NextIndex = (s + 1) % maxValues ∧
      (colors[f.NextIndex]? ≠ some f.PrevDisplayedColor →
        s = f.NextIndex ∧ f'.NextIndex = (f.NextIndex + 1) % maxValues) ∧
      (colors[f.NextIndex]? = some f.PrevDisplayedColor →
        s = (f.NextIndex + 1) % maxValues ∧ f'.NextIndex = (f.NextIndex + 2) % maxValues) := by
  have hinv := inv_of_reachable f hr
  obtain ⟨vi, c, prev, hch, hvi, hprev, hass⟩ := assign_miss f v hinv.len hinv.next hv
  have hs := chooseSlot_eq f vi c hch
  refine ⟨c, _, vi, hass, by simp [GoMap.get_set], rfl, ?_, ?_⟩
  · intro hne
    rw [if_neg hne] at hs
    exact ⟨hs, by rw [hs]⟩
  · intro heq
    rw [if_pos heq] at hs
    refine ⟨hs, ?_⟩
    simp only [hs, maxValues]
    omega

theorem cursor_step_witness :
    ∃ f, assignAll NewField ["a", "b", "c", "d", "e", "f", "g", "a"] =
        some ([Color.White, Color.Magenta, Color.Cyan, Color.Blue, Color.Green, Color.Yellow,
          Color.Red, Color.White], f) ∧
      f.ValueIndex.get "h" = none ∧
      colors[f.NextIndex]? = some f.PrevDisplayedColor ∧
      ∃ c f' s, assign f "h" = some (c, f') ∧ f'.ValueIndex.get "h" = some s ∧
        f'.NextIndex = (s + 1) % maxValues ∧
        (colors[f.NextIndex]? ≠ some f.PrevDisplayedColor →
          s = f.NextIndex ∧ f'.NextIndex = (f.NextIndex + 1) % maxValues) ∧
        (colors[f.NextIndex]? = some f.PrevDisplayedColor →
          s = (f.NextIndex + 1) % maxValues ∧ f'.NextIndex = (f.NextIndex + 2) % maxValues) :=
  ⟨_, rfl, by decide, by decide,
    cursor_step _ "h"
      (reachable_of_assignAll NewField ["a", "b", "c", "d", "e", "f", "g", "a"] _ _
        Reachable.fresh rfl)
      (by decide)⟩

/-! ## Consecutive misses -/

theorem colors_paletteAt (k : Nat) : colors[k % maxValues]? = some (paletteAt k) := by
  have hk : k % 7 < 7 := Nat.mod_lt _ (by decide)
  simp only [paletteAt, maxValues]
  generalize k % 7 = j at hk
  interval_cases j <;> rfl

theorem paletteAt_succ_ne (k : Nat) : paletteAt (k + 7) ≠ paletteAt (k + 6) := by
  have hk : k % 7 < 7 := Nat.mod_lt _ (by decide)
  have h1 : (k + 7) % 7 = k % 7 := by omega
  have h2 : (k + 6) % 7 = (k % 7 + 6) % 7 := by omega
  simp only [paletteAt, maxValues, h1, h2]
  generalize k % 7 = j at hk
  interval_cases j <;> decide

theorem cycled_NewField : Cycled [] NewField := by
  simp [Cycled, NewField, maxValues, colors, GoMap.keys, paletteAt]

theorem cycled_no_skip (pre : List String) (f : Field) (hC : Cycled pre f) :
    colors[f.NextIndex]? ≠ some f.PrevDisplayedColor ∧
    chooseSlot f = some (pre.length % maxValues, paletteAt pre.length) := by
  obtain ⟨_, hnext, hprevc, _⟩ := hC
  have hcol := colors_paletteAt pre.length
  have hne : paletteAt pre.length ≠ paletteAt (pre.length + 6) := by
    have h := paletteAt_succ_ne pre.length
    have h7 : paletteAt (pre.length + 7) = paletteAt pre.length := by
      simp [paletteAt, maxValues]
    rwa [h7] at h
  refine ⟨?_, ?_⟩
  · rw [hnext, hprevc, hcol]
    simpa using hne
  · simp only [chooseSlot, hnext, hcol, hprevc, if_neg hne]

theorem cycled_step (pre : List String) (f : Field) (v : String) (hC : Cycled pre f)
    (hv : v ∉ pre) :
    ∃ f', assign f v = some (paletteAt pre.length, f') ∧ Cycled (pre ++ [v]) f' := by
  have hch := (cycled_no_skip pre f hC).2
  obtain ⟨hlen, hnext, hprevc, hkeys⟩ := hC
  have hget : f.ValueIndex.get v = none :=
    get_none_of_not_mem_keys _ _ (fun h => hv (hkeys v h))
  have hlt : pre.length % maxValues < f.Values.length := by
    rw [hlen]
    exact Nat.mod_lt _ (by decide)
  have hass := assign_miss_at f v (f.Values[pre.length % maxValues]) (pre.length % maxValues)
    (paletteAt pre.length) hget hch (List.getElem?_eq_getElem hlt)
  refine ⟨_, hass, by simpa using hlen, ?_, ?_, ?_⟩
  · simp only [List.length_append, List.length_singleton, maxValues]
    omega
  · simp only [List.length_append, List.length_singleton, paletteAt, maxValues]
    congr 1
    omega
  · intro x hx
    have hx' : x = v ∨
        x ∈ GoMap.keys ((f.ValueIndex.delete (f.Values[pre.length % maxValues])).delete v) := by
      simpa [GoMap.set, GoMap.keys] using hx
    rcases hx' with h | h
    · simp [h]
    · have h1 := GoMap.keys_delete_subset _ _ _ (GoMap.keys_delete_subset _ _ _ h)
      simp [hkeys x h1]

theorem cycled_run (vs pre : List String) (f : Field) (hC : Cycled pre f)
    (hnd : (pre ++ vs).Nodup) :
    ∃ f', assignAll f vs = some ((List.range' pre.length vs.length).map paletteAt, f') ∧
      Cycled (pre ++ vs) f' := by
  induction vs generalizing pre f with
  | nil => exact ⟨f, by simp [assignAll], by simpa using hC⟩
  | cons v vs ih =>
    have hv : v ∉ pre := by
      intro hmem
      exact (List.nodup_append.mp hnd).2.2 hmem (List.mem_cons_self v vs)
    obtain ⟨f1, hass, hC1⟩ := cycled_step pre f v hC hv
    obtain ⟨f2, hrun, hC2⟩ := ih (pre ++ [v]) f1 hC1 (by simpa using hnd)
    refine ⟨f2, ?_, by simpa using hC2⟩
    simp only [assignAll, hass, hrun, List.length_append, List.length_singleton,
      List.length_cons, List.length_nil, Nat.zero_add, List.range'_succ, List.map_cons]

/-- C16 (consecutive misses cycle the palette): on a fresh tracker, for every
finite list of pairwise distinct values, the run of `assign` succeeds and its
`i`-th call (0-based) returns `colors[i mod 7]`; at that call the value is not
tracked, the cursor is `i mod 7` and `colors[NextIndex]` is not the colour
shown last, so the anti-repeat skip does not fire.  The first call returns
`colors[0]`. -/
theorem distinct_values_cycle (vs : List String) (hnd : vs.Nodup) :
    ∃ cs f, assignAll NewField vs = some (cs, f) ∧ cs.length = vs.length ∧
      (∀ i, i < vs.length → cs[i]? = colors[i % maxValues]?) ∧
      (0 < vs.length → cs[0]? = some Color.White) ∧
      (∀ i, i < vs.length → ∃ ci fi, assignAll NewField (vs.take i) = some (ci, fi) ∧
        fi.ValueIndex.get (vs.getD i "") = none ∧ fi.NextIndex = i % maxValues ∧
        colors[fi.NextIndex]? ≠ some fi.PrevDisplayedColor ∧
        chooseSlot fi = some (i % maxValues, paletteAt i)) := by
  obtain ⟨f, hrun, hC⟩ := cycled_run vs [] NewField cycled_NewField (by simpa using hnd)
  simp only [List.length_nil] at hrun
  have hcs : ∀ i, i < vs.length →
      ((List.range' 0 vs.length).map paletteAt)[i]? = colors[i % maxValues]? := by
    intro i hi
    rw [colors_paletteAt]
    simp [List.getElem?_map, List.getElem?_range', hi]
  refine ⟨_, f, hrun, by simp, hcs, ?_, ?_⟩
  · intro h0
    rw [hcs 0 h0]
    rfl
  · intro i hi
    have hndi : ([] ++ vs.take i).Nodup := by
      simpa using List.Nodup.sublist (List.take_sublist i vs) hnd
    obtain ⟨fi, hruni, hCi⟩ := cycled_run (vs.take i) [] NewField cycled_NewField hndi
    have hleni : (vs.take i).length = i := by
      rw [List.length_take]
      omega
    simp only [List.nil_append] at hCi
    have hskip := cycled_no_skip (vs.take i) fi hCi
    rw [hleni] at hskip
    obtain ⟨_, hnext, _, hkeys⟩ := hCi
    rw [hleni] at hnext
    refine ⟨_, fi, hruni, ?_, hnext, hskip.1, hskip.2⟩
    apply get_none_of_not_mem_keys
    intro hmem
    have hin := hkeys _ hmem
    have hvi : vs.getD i "" = vs[i] := by
      simp [List.getD_eq_getElem?_getD, List.getElem?_eq_getElem hi]
    rw [hvi] at hin
    obtain ⟨j, hj, hji⟩ := List.getElem_of_mem hin
    have hjlt : j < i := by simpa [hleni] using hj
    rw [List.getElem_take] at hji
    have := (List.Nodup.getElem_inj_iff hnd).mp hji
    omega

theorem distinct_values_cycle_witness :
    ["a", "", "c", "d", "e", "f", "g", "h", "i"].Nodup ∧
    ∃ cs f, assignAll NewField ["a", "", "c", "d", "e", "f", "g", "h", "i"] = some (cs, f) ∧
      cs.length = ["a", "", "c", "d", "e", "f", "g", "h", "i"].length ∧
      (∀ i, i < ["a", "", "c", "d", "e", "f", "g", "h", "i"].length →
        cs[i]? = colors[i % maxValues]?) ∧
      (0 < ["a", "", "c", "d", "e", "f", "g", "h", "i"].length → cs[0]? = some Color.White) ∧
      (∀ i, i < ["a", "", "c", "d", "e", "f", "g", "h", "i"].length →
        ∃ ci fi, assignAll NewField (["a", "", "c", "d", "e", "f", "g", "h", "i"].take i) =
            some (ci, fi) ∧
          fi.ValueIndex.get (["a", "", "c", "d", "e", "f", "g", "h", "i"].getD i "") = none ∧
          fi.NextIndex = i % maxValues ∧
          colors[fi.NextIndex]? ≠ some fi.PrevDisplayedColor ∧
          chooseSlot fi = some (i % maxValues, paletteAt i)) :=
  ⟨by decide, distinct_values_cycle ["a", "", "c", "d", "e", "f", "g", "h", "i"] (by decide)⟩

/-! ## Retention window -/

theorem heldAt_run_bound (v : String) (s : Nat) (hv : v ≠ "") (ws : List String) (j : Nat)
    (g g2 : Field) (cs : List Color) (hH : HeldAt v s (2 * j) g)
    (hrun : assignAll g ws = some (cs, g2)) (hj : j + novelOthers v g ws ≤ 3) :
    HeldAt v s (2 * (j + novelOthers v g ws)) g2 := by
  induction ws generalizing j g cs with
  | nil =>
    simp only [assignAll, Option.some.injEq, Prod.mk.injEq] at hrun
    obtain ⟨_, rfl⟩ := hrun
    simpa [novelOthers] using hH
  | cons w ws ih =>
    simp only [assignAll] at hrun
    split at hrun
    · cases hrun
    · rename_i c g1 hass
      split at hrun
      · cases hrun
      · rename_i cs1 g3 hrun1
        simp only [Option.some.injEq, Prod.mk.injEq] at hrun
        obtain ⟨_, rfl⟩ := hrun
        simp only [novelOthers, hass] at hj ⊢
        have hstep := heldAt_step v w s j g g1 c hv hH hass (by omega)
        have hfin := ih _ g1 cs1 hstep hrun1 (by omega)
        rwa [Nat.add_assoc] at hfin

/-- C17, as stated, fails when the first `assign` of `v` is a cache hit: after
`a .. g` fill a fresh tracker, `b` is tracked in slot 1 and `assign` returns
`Magenta` for it; the two novel values `n1`, `n2` then take slots 0 and 1, so
`b` is evicted after only 2 insertions and is given `Cyan` afterwards. -/
theorem retention_after_hit_counterexample :
    ∃ f f1 cs f2 c3 f3,
      assignAll NewField ["a", "b", "c", "d", "e", "f", "g"] =
        some ([Color.White, Color.Magenta, Color.Cyan, Color.Blue, Color.Green, Color.Yellow,
          Color.Red], f) ∧
      "b" ≠ "" ∧ f.ValueIndex.get "b" = some 1 ∧
      assign f "b" = some (Color.Magenta, f1) ∧
      assignAll f1 ["n1", "n2"] = some (cs, f2) ∧ novelOthers "b" f1 ["n1", "n2"] = 2 ∧
      f2.ValueIndex.get "b" = none ∧
      assign f2 "b" = some (c3, f3) ∧ c3 = Color.Cyan ∧ c3 ≠ Color.Magenta :=
  ⟨_, _, _, _, _, _, rfl, by decide, by decide, rfl, rfl, by decide, by decide, rfl, rfl,
    by decide⟩

/-- C17, amended (retention window): in a tracker reachable from a fresh one,
let `v` be a non-empty value that is not tracked, so that `assign` inserts it,
at a slot `s`, and returns colour `c`, leaving the cursor on the slot after
`s`.  After any run of `assign` calls that inserts at most 3 novel values (with
any number of cache hits), `v` is still tracked at slot `s`, the cursor has
moved at most 2 slots per insertion, and a further `assign` of `v` is a cache
hit that returns `c`. -/
theorem retention_window (f f1 f2 : Field) (v : String) (c : Color) (ws : List String)
    (cs : List Color) (hr : Reachable f) (hv : v ≠ "")
    (hnovel : f.ValueIndex.get v = none)
    (hass : assign f v = some (c, f1))
    (hrun : assignAll f1 ws = some (cs, f2))
    (hcount : novelOthers v f1 ws ≤ 3) :
    ∃ s, s < maxValues ∧ colors[s]? = some c ∧
      f1.ValueIndex.get v = some s ∧ f1.NextIndex = (s + 1) % maxValues ∧
      f2.ValueIndex.get v = some s ∧ f2.Values[s]? = some v ∧
      (f2.NextIndex + maxValues - (s + 1)) % maxValues ≤ 2 * novelOthers v f1 ws ∧
      ∃ f3, assign f2 v = some (c, f3) ∧ f3.ValueIndex = f2.ValueIndex ∧
        f3.Values = f2.Values ∧ f3.NextIndex = f2.NextIndex := by
  have hinv := inv_of_reachable f hr
  obtain ⟨vi, c', prev, hch, hvi, hprev, hc'⟩ := assign_miss f v hinv.len hinv.next hnovel
  obtain ⟨vi', c'', hch', _, hcol, _, _⟩ := chooseSlot_spec f hinv.next
  rw [hch] at hch'
  simp only [Option.some.injEq, Prod.mk.injEq] at hch'
  obtain ⟨rfl, rfl⟩ := hch'
  have hinv1 := inv_assign f f1 v c hinv hass
  rw [hc'] at hass
  simp only [Option.some.injEq, Prod.mk.injEq] at hass
  obtain ⟨rfl, hf1⟩ := hass
  have hget1 : f1.ValueIndex.get v = some vi := by
    rw [← hf1]
    simp [GoMap.get_set]
  have hnext1 : f1.NextIndex = (vi + 1) % maxValues := by
    rw [← hf1]
  have hH : HeldAt v vi (2 * 0) f1 := by
    refine ⟨hinv1, hget1, ?_⟩
    rw [hnext1]
    simp only [maxValues] at hvi ⊢
    omega
  obtain ⟨hinv2, hget2, hd2⟩ := heldAt_run_bound v vi hv ws 0 f1 f2 cs hH hrun (by omega)
  obtain ⟨c2, hc2, hass2⟩ := assign_hit f2 v vi hvi hget2
  rw [hcol] at hc2
  simp only [Option.some.injEq] at hc2
  subst hc2
  refine ⟨vi, hvi, hcol, hget1, hnext1, hget2, hinv2.fwd v vi hget2, ?_, _, hass2, rfl, rfl, rfl⟩
  simpa using hd2

theorem retention_window_witness :
    ∃ f f1 f2 cs, assignAll NewField ["a", "b", "c", "d", "e", "f", "g", "b"] =
        some ([Color.White, Color.Magenta, Color.Cyan, Color.Blue, Color.Green, Color.Yellow,
          Color.Red, Color.Magenta], f) ∧
      "w" ≠ "" ∧ f.ValueIndex.get "w" = none ∧
      assign f "w" = some (Color.White, f1) ∧
      assignAll f1 ["b", "x", "d", "y", "w", "f", "z"] = some (cs, f2) ∧
      novelOthers "w" f1 ["b", "x", "d", "y", "w", "f", "z"] ≤ 3 ∧
      ∃ s, s < maxValues ∧ colors[s]? = some Color.White ∧
        f1.ValueIndex.get "w" = some s ∧ f1.NextIndex = (s + 1) % maxValues ∧
        f2.ValueIndex.get "w" = some s ∧ f2.Values[s]? = some "w" ∧
        (f2.NextIndex + maxValues - (s + 1)) % maxValues ≤
          2 * novelOthers "w" f1 ["b", "x", "d", "y", "w", "f", "z"] ∧
        ∃ f3, assign f2 "w" = some (Color.White, f3) ∧ f3.ValueIndex = f2.ValueIndex ∧
          f3.Values = f2.Values ∧ f3.NextIndex = f2.NextIndex :=
  ⟨_, _, _, _, rfl, by decide, by decide, rfl, rfl, by decide,
    retention_window _ _ _ "w" Color.White ["b", "x", "d", "y", "w", "f", "z"] _
      (reachable_of_assignAll NewField ["a", "b", "c", "d", "e", "f", "g", "b"] _ _
        Reachable.fresh rfl)
      (by decide) (by decide) rfl rfl (by decide)⟩

/-! ## Lines without fields -/

theorem stateOK_of_processLines (lines : List (List String)) (ess : List (List Emit))
    (st : State) (h : processLines State.initial lines = some (ess, st)) : StateOK st := by
  obtain ⟨out, st', h', hok⟩ := processLines_total lines State.initial stateOK_initial
  rw [h] at h'
  simp only [Option.some.injEq, Prod.mk.injEq] at h'
  exact h'.2 ▸ hok

/-- C12, as stated, fails: after the lines `[a]`, `[b]` the value `b` is shown
in `Magenta`; a following line `[b]` is again `Magenta`, but when a line
without fields comes in between, the line `[b]` is shown in `White`, because
the field count changed from 1 to 0 and the tracker was discarded. -/
theorem zero_field_line_counterexample :
    (∃ ess st, processLines State.initial [["a"], ["b"], ["b"]] = some (ess, st) ∧
      columnColors 0 ess = [Color.White, Color.Magenta, Color.Magenta]) ∧
    (∃ ess st, processLines State.initial [["a"], ["b"], [], ["b"]] = some (ess, st) ∧
      columnColors 0 ess = [Color.White, Color.Magenta, Color.White]) ∧
    (∃ st es st', processLines State.initial [["a"], ["b"]] =
        some ([[⟨Color.White, "a", false⟩], [⟨Color.Magenta, "b", false⟩]], st) ∧
      processLine st [] = some (es, st') ∧ st' ≠ st ∧ st'.fields = [] ∧ st.fields ≠ []) :=
  ⟨⟨_, _, rfl, by decide⟩, ⟨_, _, rfl, by decide⟩, ⟨_, _, _, rfl, rfl, by decide, rfl, by decide⟩⟩

/-- C12, amended (zero-field line): in every state of the scanner loop, a line
without fields is processed without any call of `assign` and writes no field.
It leaves the program in its initial state: when `numFields` was 0 nothing
changes, otherwise the field count has changed and all trackers are discarded.
The lines that follow are therefore processed as from the initial state. -/
theorem zero_field_line (st : State) (hok : StateOK st) :
    processLine st [] = some ([], State.initial) ∧
    (st.numFields = 0 → st = State.initial) ∧
    (st.numFields ≠ 0 → reshape st [] ≠ st) ∧
    ∀ ls : List (List String),
      processLines st ([] :: ls) =
        (processLines State.initial ls).map (fun r => ([] :: r.1, r.2)) := by
  have h0 : st.numFields = 0 → st = State.initial := by
    intro h
    obtain ⟨fields, n⟩ := st
    simp only [StateOK] at hok
    simp only at h
    subst h
    have hnil : fields = [] := List.length_eq_zero.mp hok.1
    simp [State.initial, hnil]
  have hline : processLine st [] = some ([], State.initial) := by
    by_cases h : st.numFields = 0
    · rw [h0 h]
      rfl
    · have hne : ¬ 0 = st.numFields := fun e => h e.symm
      simp [processLine, reshape, hne, fieldLoop, State.initial]
  refine ⟨hline, h0, ?_, ?_⟩
  · intro h hcontra
    have hne : ([] : List String).length ≠ st.numFields := by
      simpa using Ne.symm h
    simp only [reshape, if_pos hne] at hcontra
    rw [← hcontra] at h
    simp at h
  · intro ls
    simp only [processLines, hline]
    cases processLines State.initial ls with
    | none => rfl
    | some r => rfl

theorem zero_field_line_witness :
    ∃ st, processLines State.initial [["a", "x"], ["b", "x"]] =
        some ([[⟨Color.White, "a", true⟩, ⟨Color.White, "x", false⟩],
               [⟨Color.Magenta, "b", true⟩, ⟨Color.White, "x", false⟩]], st) ∧
      StateOK st ∧
      processLine st [] = some ([], State.initial) ∧
      (st.numFields = 0 → st = State.initial) ∧
      (st.numFields ≠ 0 → reshape st [] ≠ st) ∧
      ∀ ls : List (List String),
        processLines st ([] :: ls) =
          (processLines State.initial ls).map (fun r => ([] :: r.1, r.2)) :=
  ⟨_, rfl, stateOK_of_processLines [["a", "x"], ["b", "x"]] _ _ rfl,
    zero_field_line _ (stateOK_of_processLines [["a", "x"], ["b", "x"]] _ _ rfl)⟩

/-! ## Output layout -/

theorem intercalate_go_append (od a b : String) (rest : List String) :
    String.intercalate.go (a ++ b) od rest = a ++ String.intercalate.go b od rest := by
  induction rest generalizing b with
  | nil => simp [String.intercalate.go]
  | cons x rest ih =>
    simp only [String.intercalate.go]
    rw [String.append_assoc, String.append_assoc, ← String.append_assoc b od x]
    exact ih _

theorem intercalate_cons_cons (od v w : String) (rest : List String) :
    String.intercalate od (v :: w :: rest) = v ++ od ++ String.intercalate od (w :: rest) := by
  simp only [String.intercalate, String.intercalate.go]
  rw [String.append_assoc, intercalate_go_append, intercalate_go_append, String.append_assoc]

theorem fieldLoop_emits (n : Nat) (vs : List String) (fields : List Field) (fi : Nat)
    (es : List Emit) (fields' : List Field)
    (h : fieldLoop n fields fi vs = some (es, fields')) :
    es.map Emit.text = vs ∧
    es.map Emit.delim =
      (List.range' fi vs.length).map (fun (i : Nat) => decide ((i : Int) < (n : Int) - 1)) := by
  induction vs generalizing fields fi es with
  | nil =>
    simp only [fieldLoop, Option.some.injEq, Prod.mk.injEq] at h
    obtain ⟨rfl, _⟩ := h
    simp
  | cons v vs ih =>
    rw [fieldLoop] at h
    split at h
    · cases h
    · split at h
      · cases h
      · split at h
        · cases h
        · rename_i es1 fields1 hrec
          simp only [Option.some.injEq, Prod.mk.injEq] at h
          obtain ⟨rfl, rfl⟩ := h
          obtain ⟨h1, h2⟩ := ih _ _ _ hrec
          simp [h1, h2, List.range'_succ]

theorem lineText_join (od : String) (es : List Emit) (vs : List String) (k : Nat)
    (htext : es.map Emit.text = vs)
    (hdelim : es.map Emit.delim =
      (List.range' k vs.length).map (fun (i : Nat) => decide (i + 1 < k + vs.length)))
    (hne : vs ≠ []) :
    lineText od es = String.intercalate od vs ++ "\n" := by
  induction es generalizing vs k with
  | nil =>
    simp only [List.map_nil] at htext
    exact absurd htext.symm hne
  | cons e es ih =>
    cases vs with
    | nil => exact absurd rfl hne
    | cons v vs =>
      simp only [List.map_cons, List.cons.injEq, List.length_cons, List.range'_succ] at htext hdelim
      obtain ⟨hv, htext'⟩ := htext
      obtain ⟨hd, hdelim'⟩ := hdelim
      cases vs with
      | nil =>
        have hes : es = [] := by simpa using htext'
        subst hes
        have hfalse : e.delim = false := by simpa using hd
        simp [lineText, hfalse, hv, String.intercalate, String.intercalate.go]
      | cons w rest =>
        have htrue : e.delim = true := by
          rw [hd]
          simp
        have hrec := ih (w :: rest) (k + 1) htext' (by
          rw [hdelim']
          apply List.map_congr_left
          intro i _
          simp only [List.length_cons]
          congr 1
          apply propext
          constructor <;> intro h <;> omega) (by simp)
        rw [lineText, hrec, htrue, hv, intercalate_cons_cons]
        simp [String.append_assoc]

/-- C11 (output layout): in every state of the scanner loop, a line with
`n ≥ 1` fields is processed without failure; the texts printed are the field
values in input order, the output delimiter is printed after each of the first
`n - 1` fields and not after the last one, and the text written for the line
is the fields joined by the output delimiter, followed by a newline. -/
theorem output_layout (outputDelimiter : String) (st : State) (line : List String)
    (hok : StateOK st) (hn : 1 ≤ line.length) :
    ∃ es st', processLine st line = some (es, st') ∧
      es.map Emit.text = line ∧
      es.map Emit.delim = (List.range line.length).map (fun i => decide (i + 1 < line.length)) ∧
      lineText outputDelimiter es = String.intercalate outputDelimiter line ++ "\n" := by
  obtain ⟨es, st', hproc, _⟩ := processLine_total st line hok
  have hnum : (reshape st line).numFields = line.length := by
    unfold reshape
    by_cases h : line.length ≠ st.numFields
    · rw [if_pos h]
    · rw [if_neg h]
      exact (not_not.mp h).symm
  have hloop : ∃ fields', fieldLoop line.length (reshape st line).fields 0 line =
      some (es, fields') := by
    simp only [processLine, hnum] at hproc
    split at hproc
    · cases hproc
    · rename_i es1 fields1 h1
      simp only [Option.some.injEq, Prod.mk.injEq] at hproc
      exact ⟨fields1, by rw [h1, hproc.1]⟩
  obtain ⟨fields', hloop⟩ := hloop
  obtain ⟨htext, hdelim⟩ := fieldLoop_emits _ _ _ _ _ _ hloop
  have hdelim' : es.map Emit.delim =
      (List.range' 0 line.length).map (fun (i : Nat) => decide (i + 1 < 0 + line.length)) := by
    rw [hdelim]
    apply List.map_congr_left
    intro i _
    congr 1
    apply propext
    constructor <;> intro h <;> omega
  refine ⟨es, st', hproc, htext, ?_, ?_⟩
  · rw [hdelim', List.range_eq_range']
    simp
  · apply lineText_join outputDelimiter es line 0 htext hdelim'
    intro hnil
    rw [hnil] at hn
    simp at hn

theorem output_layout_witness :
    ∃ st, processLines State.initial [["a", "x"]] =
        some ([[⟨Color.White, "a", true⟩, ⟨Color.White, "x", false⟩]], st) ∧
      StateOK st ∧ 1 ≤ ["b", "", "x"].length ∧
      ∃ es st', processLine st ["b", "", "x"] = some (es, st') ∧
        es.map Emit.text = ["b", "", "x"] ∧
        es.map Emit.delim =
          (List.range ["b", "", "x"].length).map (fun i => decide (i + 1 < ["b", "", "x"].length)) ∧
        lineText "\t" es = String.intercalate "\t" ["b", "", "x"] ++ "\n" :=
  ⟨_, rfl, stateOK_of_processLines [["a", "x"]] _ _ rfl, by decide,
    output_layout "\t" _ ["b", "", "x"] (stateOK_of_processLines [["a", "x"]] _ _ rfl)
      (by decide)⟩

/-! ## Frame of an insertion -/

theorem miss_frame_nonempty (f : Field) (v : String) (hr : Reachable f)
    (hv : f.ValueIndex.get v = none) :
    ∃ c f' s prev, assign f v = some (c, f') ∧ f'.ValueIndex.get v = some s ∧
      f.Values[s]? = some prev ∧
      ∀ u t, f.ValueIndex.get u = some t → t ≠ s → (u ≠ "" ∨ prev ≠ "") →
        f'.ValueIndex.get u = some t := by
  have hinv := inv_of_reachable f hr
  obtain ⟨vi, c, prev, _, _, hprev, hass⟩ := assign_miss f v hinv.len hinv.next hv
  refine ⟨c, _, vi, prev, hass, by simp [GoMap.get_set], hprev, ?_⟩
  intro u t hu hts hor
  have huv : v ≠ u := by
    rintro rfl
    rw [hv] at hu
    cases hu
  have hup : prev ≠ u := by
    rintro rfl
    have hne : prev ≠ "" := by
      rcases hor with h | h <;> exact h
    have h1 := hinv.bwd vi prev hprev hne
    rw [hu] at h1
    exact hts (by simpa using h1)
  simp [GoMap.get_set, GoMap.get_delete, huv, hup, hu]

/-- C15, evaluated at the failing input: on a fresh tracker the empty string is
assigned and tracked at slot 0.  The novel value `x` is then inserted at slot
1, which was empty, yet the empty string is no longer tracked afterwards: the
`delete` of line 120 removed the key `""`.  Hence the three one-field lines
`""`, `"x"`, `""` are shown in White, Magenta, Cyan, the last one as a novel
value. -/
theorem miss_frame_empty_string :
    ∃ f1 f2 f3, assign NewField "" = some (Color.White, f1) ∧
      f1.ValueIndex.get "" = some 0 ∧ f1.ValueIndex.get "x" = none ∧
      f1.Values[1]? = some "" ∧ f1.ValueIndex.keys = [""] ∧
      assign f1 "x" = some (Color.Magenta, f2) ∧
      f2.ValueIndex.get "x" = some 1 ∧ f2.ValueIndex.get "" = none ∧
      f2.ValueIndex.keys = ["x"] ∧
      assign f2 "" = some (Color.Cyan, f3) ∧
      (∃ ess st, processLines State.initial [[""], ["x"], [""]] = some (ess, st) ∧
        columnColors 0 ess = [Color.White, Color.Magenta, Color.Cyan]) :=
  ⟨_, _, _, rfl, by decide, by decide, by decide, by decide, rfl, by decide, by decide,
    by decide, rfl, ⟨_, _, rfl, by decide⟩⟩

/-! ## Column independence -/

theorem fieldLoop_column (n : Nat) (vs : List String) (fields : List Field) (fi : Nat)
    (es : List Emit) (fields' : List Field)
    (h : fieldLoop n fields fi vs = some (es, fields')) :
    fields'.length = fields.length ∧
    (∀ j, j < fi ∨ fi + vs.length ≤ j → fields'[j]? = fields[j]?) ∧
    (∀ k, k < vs.length → ∃ f v c f', fields[fi + k]? = some f ∧ vs[k]? = some v ∧
      assign f v = some (c, f') ∧ (lineColors es)[k]? = some c ∧
      fields'[fi + k]? = some f') := by
  induction vs generalizing fields fi es with
  | nil =>
    simp only [fieldLoop, Option.some.injEq, Prod.mk.injEq] at h
    obtain ⟨_, rfl⟩ := h
    exact ⟨rfl, fun _ _ => rfl, fun k hk => absurd hk (by simp)⟩
  | cons v vs ih =>
    rw [fieldLoop] at h
    split at h
    · cases h
    · rename_i f hf
      split at h
      · cases h
      · rename_i c f1 hass
        split at h
        · cases h
        · rename_i es1 fields1 hrec
          simp only [Option.some.injEq, Prod.mk.injEq] at h
          obtain ⟨rfl, rfl⟩ := h
          obtain ⟨hlen, hframe, hcols⟩ := ih _ _ _ hrec
          have hfi : fi < fields.length := (List.getElem?_eq_some.mp hf).1
          have hset : ∀ j, j ≠ fi → (fields.set fi f1)[j]? = fields[j]? := by
            intro j hj
            simp [List.getElem?_set, Ne.symm hj]
          refine ⟨by simpa using hlen, ?_, ?_⟩
          · intro j hj
            simp only [List.length_cons] at hj
            rw [hframe j (by omega), hset j (by omega)]
          · intro k hk
            cases k with
            | zero =>
              refine ⟨f, v, c, f1, by simpa using hf, by simp, hass, by simp [lineColors], ?_⟩
              rw [Nat.add_zero, hframe fi (by omega)]
              simp [List.getElem?_set, hfi]
            | succ k =>
              simp only [List.length_cons] at hk
              obtain ⟨f2, v2, c2, f2', hf2, hv2, hass2, hc2, hf2'⟩ := hcols k (by omega)
              rw [hset _ (by omega)] at hf2
              have hidx : fi + (k + 1) = fi + 1 + k := by omega
              refine ⟨f2, v2, c2, f2', by rw [hidx]; exact hf2, by simpa using hv2, hass2, ?_,
                by rw [hidx]; exact hf2'⟩
              simpa [lineColors] using hc2

theorem processLine_column (st : State) (lineFields : List String) (es : List Emit) (st' : State)
    (hnum : st.numFields = lineFields.length) (i : Nat) (hi : i < lineFields.length)
    (h : processLine st lineFields = some (es, st')) :
    st'.numFields = lineFields.length ∧ st'.fields.length = st.fields.length ∧
    ∃ f v c f', st.fields[i]? = some f ∧ lineFields[i]? = some v ∧
      assign f v = some (c, f') ∧ (lineColors es)[i]? = some c ∧ st'.fields[i]? = some f' := by
  have hre : reshape st lineFields = st := by
    simp [reshape, hnum]
  simp only [processLine, hre] at h
  split at h
  · cases h
  · rename_i es1 fields1 hloop
    simp only [Option.some.injEq, Prod.mk.injEq] at h
    obtain ⟨rfl, rfl⟩ := h
    obtain ⟨hlen, _, hcols⟩ := fieldLoop_column _ _ _ _ _ _ hloop
    obtain ⟨f, v, c, f', hf, hv, hass, hc, hf'⟩ := hcols i hi
    simp only [Nat.zero_add] at hf hf'
    exact ⟨hnum, hlen, f, v, c, f', hf, hv, hass, hc, hf'⟩

theorem processLines_column (n i : Nat) (hi : i < n) (ls : List (List String)) (st : State)
    (ess : List (List Emit)) (st' : State) (f : Field)
    (hnum : st.numFields = n) (hf : st.fields[i]? = some f)
    (hls : ∀ l ∈ ls, l.length = n)
    (h : processLines st ls = some (ess, st')) :
    ∃ f', assignAll f (columnValues i ls) = some (columnColors i ess, f') ∧
      st'.fields[i]? = some f' ∧ st'.numFields = n := by
  induction ls generalizing st ess f with
  | nil =>
    simp only [processLines, Option.some.injEq, Prod.mk.injEq] at h
    obtain ⟨rfl, rfl⟩ := h
    exact ⟨f, by simp [columnValues, columnColors, assignAll], hf, hnum⟩
  | cons l ls ih =>
    have hl : l.length = n := hls l (List.mem_cons_self l ls)
    simp only [processLines] at h
    split at h
    · cases h
    · rename_i es st1 hline
      split at h
      · cases h
      · rename_i ess1 st2 hrest
        simp only [Option.some.injEq, Prod.mk.injEq] at h
        obtain ⟨rfl, rfl⟩ := h
        obtain ⟨hnum1, _, f0, v, c, f1, hf0, hv, hass, hc, hf1⟩ :=
          processLine_column st l es st1 (by rw [hnum, hl]) i (by rw [hl]; exact hi) hline
        rw [hf] at hf0
        simp only [Option.some.injEq] at hf0
        subst hf0
        obtain ⟨f2, hrun, hf2, hnum2⟩ := ih st1 ess1 f1 (by rw [hnum1, hl]) hf1
          (fun l' hl' => hls l' (List.mem_cons_of_mem l hl')) hrest
        refine ⟨f2, ?_, hf2, hnum2⟩
        have hcv : columnValues i (l :: ls) = v :: columnValues i ls := by
          simp [columnValues, List.filterMap_cons, hv]
        have hcc : columnColors i (es :: ess1) = c :: columnColors i ess1 := by
          simp [columnColors, List.filterMap_cons, hc]
        rw [hcv, hcc]
        simp only [assignAll, hass, hrun]

theorem processLines_initial_fresh (n : Nat) (hn : 0 < n) (l : List String)
    (ls : List (List String)) (hl : l.length = n) :
    processLines State.initial (l :: ls) =
      processLines { fields := List.replicate n NewField, numFields := n } (l :: ls) := by
  have h1 : processLine State.initial l =
      processLine { fields := List.replicate n NewField, numFields := n } l := by
    have hne : ¬ n = 0 := by omega
    simp [processLine, reshape, State.initial, hl, hne]
  simp only [processLines, h1]


theorem column_from_initial (n i : Nat) (hi : i < n) (ls : List (List String))
    (hls : ∀ l ∈ ls, l.length = n) :
    ∃ ess st f, processLines State.initial ls = some (ess, st) ∧
      assignAll NewField (columnValues i ls) = some (columnColors i ess, f) ∧
      (ls ≠ [] → st.fields[i]? = some f ∧ st.numFields = n) := by
  obtain ⟨ess, st, hrun, _⟩ := processLines_total ls State.initial stateOK_initial
  cases ls with
  | nil =>
    simp only [processLines, Option.some.injEq, Prod.mk.injEq] at hrun
    obtain ⟨rfl, rfl⟩ := hrun
    exact ⟨[], State.initial, NewField, rfl, rfl, fun h => absurd rfl h⟩
  | cons l ls =>
    have hl : l.length = n := hls l (List.mem_cons_self l ls)
    have hrun' := hrun
    rw [processLines_initial_fresh n (by omega) l ls hl] at hrun'
    have hfresh : (List.replicate n NewField)[i]? = some NewField := by
      simp [List.getElem?_replicate, hi]
    obtain ⟨f, hcolrun, hf, hnum⟩ := processLines_column n i hi (l :: ls)
      { fields := List.replicate n NewField, numFields := n } ess st NewField rfl hfresh hls hrun'
    exact ⟨ess, st, f, hrun, hcolrun, fun _ => ⟨hf, hnum⟩⟩

/-- C18 (column independence): let two sequences of lines have `n` fields in
every line and the same values in column `i < n`, line by line.  Processing
each from the initial state succeeds and shows the same colours in column `i`.
These colours and the final tracker of column `i` are those of a run of
`assign` on a fresh tracker over the values of column `i` alone: no other
column reads or writes that tracker. -/
theorem column_independence (n i : Nat) (hi : i < n) (ls1 ls2 : List (List String))
    (h1 : ∀ l ∈ ls1, l.length = n) (h2 : ∀ l ∈ ls2, l.length = n)
    (hcol : ls1.map (fun l => l[i]?) = ls2.map (fun l => l[i]?)) :
    ∃ ess1 st1 ess2 st2 f,
      processLines State.initial ls1 = some (ess1, st1) ∧
      processLines State.initial ls2 = some (ess2, st2) ∧
      columnColors i ess1 = columnColors i ess2 ∧
      assignAll NewField (columnValues i ls1) = some (columnColors i ess1, f) ∧
      assignAll NewField (columnValues i ls2) = some (columnColors i ess2, f) ∧
      (ls1 ≠ [] → st1.fields[i]? = some f ∧ st2.fields[i]? = some f) := by
  obtain ⟨ess1, st1, f1, hrun1, hc1, hf1⟩ := column_from_initial n i hi ls1 h1
  obtain ⟨ess2, st2, f2, hrun2, hc2, hf2⟩ := column_from_initial n i hi ls2 h2
  have hvals : columnValues i ls1 = columnValues i ls2 := by
    have e1 : columnValues i ls1 = (ls1.map (fun l => l[i]?)).filterMap id := by
      simp [columnValues, List.filterMap_map]
    have e2 : columnValues i ls2 = (ls2.map (fun l => l[i]?)).filterMap id := by
      simp [columnValues, List.filterMap_map]
    rw [e1, e2, hcol]
  rw [hvals, hc2] at hc1
  simp only [Option.some.injEq, Prod.mk.injEq] at hc1
  obtain ⟨hcc, hff⟩ := hc1
  subst hff
  refine ⟨ess1, st1, ess2, st2, f2, hrun1, hrun2, hcc.symm, ?_, hc2, ?_⟩
  · rw [hvals, ← hcc]
    exact hc2
  · intro hne
    have hne2 : ls2 ≠ [] := by
      intro h
      rw [h] at hcol
      simp at hcol
      exact hne hcol
    exact ⟨(hf1 hne).1, (hf2 hne2).1⟩

theorem column_independence_witness :
    (0 : Nat) < 2 ∧
    (∀ l ∈ [["a", "x"], ["a", "y"], ["b", "x"]], l.length = 2) ∧
    (∀ l ∈ [["a", "p"], ["a", "p"], ["b", "q"]], l.length = 2) ∧
    [["a", "x"], ["a", "y"], ["b", "x"]].map (fun l => l[0]?) =
      [["a", "p"], ["a", "p"], ["b", "q"]].map (fun l => l[0]?) ∧
    ∃ ess1 st1 ess2 st2 f,
      processLines State.initial [["a", "x"], ["a", "y"], ["b", "x"]] = some (ess1, st1) ∧
      processLines State.initial [["a", "p"], ["a", "p"], ["b", "q"]] = some (ess2, st2) ∧
      columnColors 0 ess1 = columnColors 0 ess2 ∧
      assignAll NewField (columnValues 0 [["a", "x"], ["a", "y"], ["b", "x"]]) =
        some (columnColors 0 ess1, f) ∧
      assignAll NewField (columnValues 0 [["a", "p"], ["a", "p"], ["b", "q"]]) =
        some (columnColors 0 ess2, f) ∧
      ([["a", "x"], ["a", "y"], ["b", "x"]] ≠ [] →
        st1.fields[0]? = some f ∧ st2.fields[0]? = some f) :=
  ⟨by decide, by decide, by decide, by decide,
    column_independence 2 0 (by decide) [["a", "x"], ["a", "y"], ["b", "x"]]
      [["a", "p"], ["a", "p"], ["b", "q"]] (by decide) (by decide) (by decide)⟩

end Tailfeather
